import Mathlib

/-!
# GCLI: a command-line task tracker (`main.go`)

Shallow embedding of the task store and of the five command handlers
(`handleAdd`, `handleList`, `handleDone`, `handleDelete`, `handleModify`),
followed by the properties of the specification that are checked against it.

Conventions of the embedding.

* Go `int` is the 64-bit signed integer: values are `Int`, and the one
  arithmetic operation on ids (`ID + 1` in `handleAdd`) wraps with `wrapInt`.
* A `time.Time` is the instant it denotes, in nanoseconds since the Go zero
  time `0001-01-01T00:00:00Z`; `IsZero` is `= 0`, `Before` is `<`.
* A `time.Duration` is an `Int` number of nanoseconds; `Time.Sub` saturates at
  the 64-bit range; `Duration.Hours` and the division by 24 are float64
  operations, embedded as exact rationals rounded to 53 significant bits.
* `time.Parse("2006-01-02", ·)` and `Time.Format("2006-01-02")` belong to the
  Go library and are taken as the parameter `TimeLib`; `goTime` is the
  reference instance (proleptic Gregorian calendar, UTC).
* The file `tasks.json` is a `FileState`; every handler maps the file before
  the invocation to an `Outcome`: exit status, message printed, file after.
* Flag parsing is outside the embedding: handlers receive the flag values.
-/

namespace GCLI

/-! ## Data model -/

/-- The `Task` struct. `Due` is the instant of the `time.Time`, in nanoseconds
since `0001-01-01T00:00:00Z` (so the zero `time.Time` is `0`). -/
structure Task where
  ID : Int
  Name : String
  Done : Bool
  Due : Int
deriving DecidableEq, Repr

/-- State of `tasks.json` as seen by `readTasks`. -/
inductive FileState where
  /-- `os.Open` fails with a not-exist error. -/
  | absent
  /-- `os.Open` fails with any other error. -/
  | unreadable (err : String)
  /-- The file opens but its content does not decode as `[]Task`. -/
  | malformed (err : String)
  /-- The file decodes to this sequence of tasks. -/
  | stored (tasks : List Task)
deriving DecidableEq, Repr

/-- How the next `saveTasks` call behaves: it succeeds, `os.Create` fails (the
file is untouched), or `Encode` fails after the file was truncated (what is
left behind is `residue`). -/
inductive SaveMode where
  | ok
  | createFails (err : String)
  | encodeFails (err : String) (residue : FileState)
deriving DecidableEq, Repr

/-- Line printed by a handler; the comment gives the source text. -/
inductive Msg where
  /-- Printed as: 错误：必须提供任务名称（-name） -/
  | missingName
  /-- Printed as: 错误：无效的日期格式 - %v -/
  | badDate (err : String)
  /-- Printed as: 读取失败：%v -/
  | readFailed (err : String)
  /-- Printed as: 保存失败：%v -/
  | saveFailed (err : String)
  /-- Printed as: 任务添加成功！ -/
  | added
  /-- Printed as: 当前没有任务 -/
  | noTasks
  /-- Printed as: 任务列表： followed by one line per task -/
  | listing (lines : List String)
  /-- Printed as: 错误：必须提供任务ID（-id） -/
  | missingId
  /-- Printed as: 错误：找不到ID为%d的任务 -/
  | notFound (id : Int)
  /-- Printed as: 任务标记为已完成！ -/
  | markedDone
  /-- Printed as: 任务删除成功！ -/
  | deleted
  /-- Printed as: 任务修改成功！ -/
  | modified
deriving DecidableEq, Repr

/-- Text written to standard output for a message. -/
def Msg.render : Msg → String
  | .missingName => "错误：必须提供任务名称（-name）\n"
  | .badDate e => "错误：无效的日期格式 - " ++ e ++ "\n"
  | .readFailed e => "读取失败：" ++ e ++ "\n"
  | .saveFailed e => "保存失败：" ++ e ++ "\n"
  | .added => "任务添加成功！\n"
  | .noTasks => "当前没有任务\n"
  | .listing lines => "任务列表：\n" ++ String.join lines
  | .missingId => "错误：必须提供任务ID（-id）\n"
  | .notFound id => "错误：找不到ID为" ++ toString id ++ "的任务\n"
  | .markedDone => "任务标记为已完成！\n"
  | .deleted => "任务删除成功！\n"
  | .modified => "任务修改成功！\n"

/-- Result of one invocation: process exit status, message, file afterwards. -/
structure Outcome where
  exit : Nat
  msg : Msg
  file : FileState
deriving DecidableEq, Repr

/-- The two library functions on dates used by the handlers. -/
structure TimeLib where
  /-- `time.Parse("2006-01-02", s)`: midnight UTC of the date, or the error text. -/
  parse : String → Except String Int
  /-- `t.Format("2006-01-02")`. -/
  format : Int → String

/-! ## Reference instance of the date library -/

/-- Gregorian leap year. -/
def isLeapYear (y : Int) : Bool := y % 4 = 0 ∧ (y % 100 ≠ 0 ∨ y % 400 = 0)

/-- Number of days of month `m` of year `y`. -/
def daysInMonth (y m : Int) : Int :=
  if m = 2 then (if isLeapYear y then 29 else 28)
  else if m = 4 ∨ m = 6 ∨ m = 9 ∨ m = 11 then 30
  else 31

/-- Days from `0001-01-01` to the civil date `y-m-d`. -/
def daysFromCivil (y m d : Int) : Int :=
  let y1 := if m ≤ 2 then y - 1 else y
  let era := y1 / 400
  let yoe := y1 - era * 400
  let doy := (153 * (if 2 < m then m - 3 else m + 9) + 2) / 5 + d - 1
  let doe := yoe * 365 + yoe / 4 - yoe / 100 + doy
  era * 146097 + doe - 306

/-- Civil date `(y, m, d)` of the day `z` days after `0001-01-01`. -/
def civilFromDays (z : Int) : Int × Int × Int :=
  let z1 := z + 306
  let era := z1 / 146097
  let doe := z1 - era * 146097
  let yoe := (doe - doe / 1460 + doe / 36524 - doe / 146096) / 365
  let doy := doe - (365 * yoe + yoe / 4 - yoe / 100)
  let mp := (5 * doy + 2) / 153
  let d := doy - (153 * mp + 2) / 5 + 1
  let m := if mp < 10 then mp + 3 else mp - 9
  (yoe + era * 400 + (if m ≤ 2 then 1 else 0), m, d)

/-- Value of a decimal digit character. -/
def digitVal (c : Char) : Int := (c.toNat : Int) - 48

/-- Decimal text of an integer, padded with zeros on the left to `w`
characters. -/
def padZero (w : Nat) (n : Int) : String :=
  String.mk (List.replicate (w - (toString n).length) '0') ++ toString n

/-- Reference `TimeLib`: dates `YYYY-MM-DD` of the proleptic Gregorian
calendar, in UTC. -/
def goTime : TimeLib where
  parse s :=
    match s.toList with
    | [a, b, c, d, s1, e, f, s2, g, h] =>
      if a.isDigit ∧ b.isDigit ∧ c.isDigit ∧ d.isDigit ∧ s1 = '-' ∧ e.isDigit ∧ f.isDigit
          ∧ s2 = '-' ∧ g.isDigit ∧ h.isDigit then
        let y := 1000 * digitVal a + 100 * digitVal b + 10 * digitVal c + digitVal d
        let mo := 10 * digitVal e + digitVal f
        let dd := 10 * digitVal g + digitVal h
        if 1 ≤ mo ∧ mo ≤ 12 then
          if 1 ≤ dd ∧ dd ≤ daysInMonth y mo then
            .ok (daysFromCivil y mo dd * (24 * 3600000000000))
          else .error "day out of range"
        else .error "month out of range"
      else .error "cannot parse"
    | _ => .error "cannot parse"
  format t :=
    match civilFromDays (t / (24 * 3600000000000)) with
    | (y, m, d) => padZero 4 y ++ "-" ++ padZero 2 m ++ "-" ++ padZero 2 d

/-! ## Store -/

/-- `readTasks`: the pair `(tasks, err)` the Go function returns. -/
def readTasks : FileState → List Task × Option String
  | .absent => ([], none)
  | .unreadable e => ([], some e)
  | .malformed e => ([], some e)
  | .stored ts => (ts, none)

/-- `saveTasks`: the file afterwards and the error returned. -/
def saveTasks (m : SaveMode) (f : FileState) (tasks : List Task) : FileState × Option String :=
  match m with
  | .ok => (.stored tasks, none)
  | .createFails e => (f, some e)
  | .encodeFails e residue => (residue, some e)

/-- The tail shared by the four writing handlers: `saveTasks`, then either the
save-failure exit or the success message. -/
def saveAndReport (m : SaveMode) (f : FileState) (tasks : List Task) (success : Msg) : Outcome :=
  match saveTasks m f tasks with
  | (f', some e) => ⟨1, .saveFailed e, f'⟩
  | (f', none) => ⟨0, success, f'⟩

/-! ## Machine arithmetic -/

/-- Two's-complement wrap of an integer to the 64-bit signed range. -/
def wrapInt (x : Int) : Int := (x + 2 ^ 63) % 2 ^ 64 - 2 ^ 63

/-- Nanoseconds in `time.Minute`. -/
def minute : Int := 60 * 1000000000

/-- Nanoseconds in `time.Hour`. -/
def hour : Int := 60 * minute

/-! ## add -/

/-- The `handleAdd` function, after flag parsing. -/
def handleAdd (lib : TimeLib) (m : SaveMode) (f : FileState) (name due : String) : Outcome :=
  if name = "" then ⟨1, .missingName, f⟩
  else
    let parsed : Except String Int :=
      if due ≠ "" then
        match lib.parse due with
        | .error e => .error e
        | .ok t => .ok (t + (23 * hour + 59 * minute))
      else .ok 0
    match parsed with
    | .error e => ⟨1, .badDate e, f⟩
    | .ok dueTime =>
      let tasks := (readTasks f).1
      let newID : Int :=
        match tasks.getLast? with
        | some t => wrapInt (t.ID + 1)
        | none => 1
      saveAndReport m f (tasks ++ [⟨newID, name, false, dueTime⟩]) .added

/-! ## float64 and durations -/

/-- Round a rational to the nearest integer, ties to the even one. -/
def roundHalfEven (x : ℚ) : Int :=
  if x - ⌊x⌋ < 1 / 2 then ⌊x⌋
  else if 1 / 2 < x - ⌊x⌋ then ⌊x⌋ + 1
  else if ⌊x⌋ % 2 = 0 then ⌊x⌋ else ⌊x⌋ + 1

/-- The float64 nearest to `x` (round to nearest, ties to even, 53-bit
significand), for `x` in the normal range; every value the handlers compute
is `0` or has magnitude between `2⁻⁴²` and `2⁶³`. -/
def roundFloat64 (x : ℚ) : ℚ :=
  if x = 0 then 0
  else roundHalfEven (x / 2 ^ (Int.log 2 |x| - 52)) * 2 ^ (Int.log 2 |x| - 52)

/-- Conversion `int(f)` of a float64 to `int`: truncation toward zero. -/
def truncInt (x : ℚ) : Int := if 0 ≤ x then ⌊x⌋ else ⌈x⌉

/-- Smallest `time.Duration`. -/
def minDuration : Int := -2 ^ 63

/-- Largest `time.Duration`. -/
def maxDuration : Int := 2 ^ 63 - 1

/-- `t.Sub(u)`: the difference in nanoseconds, saturated to the range of
`time.Duration`. -/
def timeSub (t u : Int) : Int :=
  if t - u < minDuration then minDuration
  else if maxDuration < t - u then maxDuration
  else t - u

/-- `d.Hours()`: `float64(d / Hour) + float64(d % Hour) / (60*60*1e9)`. -/
def Hours (d : Int) : ℚ :=
  roundFloat64 (roundFloat64 (Int.tdiv d hour)
    + roundFloat64 (roundFloat64 (Int.tmod d hour) / 3600000000000))

/-- The expression `int(t.Due.Sub(now).Hours()/24) + 1` of `handleList`. -/
def daysLeft (due now : Int) : Int :=
  truncInt (roundFloat64 (Hours (timeSub due now) / 24)) + 1

/-! ## list -/

/-- Suffix appended to the formatted due date. -/
inductive DueNote where
  | plain
  | overdue
  | remaining (days : Int)
deriving DecidableEq, Repr

/-- The two-branch `if` of `handleList` under `!t.Due.IsZero()`. -/
def dueNote (now : Int) (t : Task) : DueNote :=
  if t.Due < now ∧ t.Done = false then .overdue
  else if 0 < daysLeft t.Due now ∧ t.Done = false then .remaining (daysLeft t.Due now)
  else .plain

/-- Text of a suffix. -/
def DueNote.text : DueNote → String
  | .plain => ""
  | .overdue => " (已过期)"
  | .remaining days => " (" ++ toString days ++ "天后到期)"

/-- The variable `dueInfo` of `handleList` for one task. -/
def dueInfo (lib : TimeLib) (now : Int) (t : Task) : String :=
  if t.Due = 0 then "无截止日期"
  else lib.format t.Due ++ (dueNote now t).text

/-- The verb `%-20s`: pad on the right with spaces to 20 characters. -/
def padRight20 (s : String) : String :=
  s ++ String.mk (List.replicate (20 - s.length) ' ')

/-- One line of the listing: `[%s] %d. %-20s %s`. -/
def taskLine (lib : TimeLib) (now : Int) (t : Task) : String :=
  "[" ++ (if t.Done then "✓" else " ") ++ "] " ++ toString t.ID ++ ". "
    ++ padRight20 t.Name ++ " " ++ dueInfo lib now t ++ "\n"

/-- The `handleList` function; `now` is the value of `time.Now()`. -/
def handleList (lib : TimeLib) (f : FileState) (now : Int) : Outcome :=
  match readTasks f with
  | (_, some e) => ⟨1, .readFailed e, f⟩
  | (tasks, none) =>
    if tasks.length = 0 then ⟨0, .noTasks, f⟩
    else ⟨0, .listing (tasks.map (taskLine lib now)), f⟩

/-! ## done -/

/-- The search loop of `handleDone`: set `Done` on the first task with the id
and stop; the flag is `found`. -/
def doneLoop (id : Int) : List Task → List Task × Bool
  | [] => ([], false)
  | t :: ts =>
    if t.ID = id then ({ t with Done := true } :: ts, true)
    else ((t :: (doneLoop id ts).1), (doneLoop id ts).2)

/-- The `handleDone` function, after flag parsing. -/
def handleDone (m : SaveMode) (f : FileState) (id : Int) : Outcome :=
  if id = 0 then ⟨1, .missingId, f⟩
  else
    match readTasks f with
    | (_, some e) => ⟨1, .readFailed e, f⟩
    | (tasks, none) =>
      if (doneLoop id tasks).2 = false then ⟨1, .notFound id, f⟩
      else saveAndReport m f (doneLoop id tasks).1 .markedDone

/-! ## delete -/

/-- The loop of `handleDelete`: the accumulator is `(newTasks, found)`. -/
def deleteLoop (id : Int) (tasks : List Task) : List Task × Bool :=
  tasks.foldl (fun acc t => if t.ID = id then (acc.1, true) else (acc.1 ++ [t], acc.2)) ([], false)

/-- The `handleDelete` function, after flag parsing. -/
def handleDelete (m : SaveMode) (f : FileState) (id : Int) : Outcome :=
  if id = 0 then ⟨1, .missingId, f⟩
  else
    match readTasks f with
    | (_, some e) => ⟨1, .readFailed e, f⟩
    | (tasks, none) =>
      if (deleteLoop id tasks).2 = false then ⟨1, .notFound id, f⟩
      else saveAndReport m f (deleteLoop id tasks).1 .deleted

/-! ## modify -/

/-- The body of the loop of `handleModify` on the task with the id: replace
the name if one is given, then replace the due date if one is given; a date
that does not parse exits the process (`.error`). -/
def modifyTask (lib : TimeLib) (name due : String) (t : Task) : Except String Task :=
  if due ≠ "" then
    match lib.parse due with
    | .error e => .error e
    | .ok d =>
      .ok { (if name ≠ "" then { t with Name := name } else t) with Due := d + 23 * hour }
  else .ok (if name ≠ "" then { t with Name := name } else t)

/-- The loop of `handleModify`: apply `modifyTask` to the first task with the
id and stop; the flag is `found`. -/
def modifyLoop (lib : TimeLib) (id : Int) (name due : String) :
    List Task → Except String (List Task × Bool)
  | [] => .ok ([], false)
  | t :: ts =>
    if t.ID = id then
      match modifyTask lib name due t with
      | .error e => .error e
      | .ok t' => .ok (t' :: ts, true)
    else
      match modifyLoop lib id name due ts with
      | .error e => .error e
      | .ok r => .ok (t :: r.1, r.2)

/-- The `handleModify` function, after flag parsing. -/
def handleModify (lib : TimeLib) (m : SaveMode) (f : FileState) (id : Int) (name due : String) :
    Outcome :=
  if id = 0 then ⟨1, .missingId, f⟩
  else
    match readTasks f with
    | (_, some e) => ⟨1, .readFailed e, f⟩
    | (tasks, none) =>
      match modifyLoop lib id name due tasks with
      | .error e => ⟨1, .badDate e, f⟩
      | .ok r =>
        if r.2 = false then ⟨1, .notFound id, f⟩
        else saveAndReport m f r.1 .modified

/-! ## Dispatch and sequences of invocations -/

/-- The subcommands of `main` with their flag values (`now` is the clock
reading of a `list` invocation). -/
inductive Cmd where
  | add (name due : String)
  | list (now : Int)
  | done (id : Int)
  | delete (id : Int)
  | modify (id : Int) (name due : String)
deriving DecidableEq, Repr

/-- The `switch` of `main`: one invocation of the program. -/
def run (lib : TimeLib) (m : SaveMode) (c : Cmd) (f : FileState) : Outcome :=
  match c with
  | .add name due => handleAdd lib m f name due
  | .list now => handleList lib f now
  | .done id => handleDone m f id
  | .delete id => handleDelete m f id
  | .modify id name due => handleModify lib m f id name due

/-- Run invocations one after the other, each on the file the previous one
left; `none` as soon as one of them exits with a non-zero status. -/
def runAll (lib : TimeLib) : List (SaveMode × Cmd) → FileState → Option FileState
  | [], f => some f
  | (m, c) :: rest, f =>
    if (run lib m c f).exit = 0 then runAll lib rest (run lib m c f).file else none

/-! ## Statements of the specification -/

/-- Largest id of a store, `none` for the empty store. -/
def maxId : List Task → Option Int
  | [] => none
  | t :: ts =>
    match maxId ts with
    | none => some t.ID
    | some m => some (max t.ID m)

/-- The id of a new task as the specification words it: `max(existing ids) + 1`,
or `1` if the store is empty. -/
def specNextId (ts : List Task) : Int :=
  match maxId ts with
  | none => 1
  | some m => m + 1

/-- Number of `add` invocations in a sequence. -/
def countAdds : List (SaveMode × Cmd) → Nat
  | [] => 0
  | (_, .add _ _) :: rest => countAdds rest + 1
  | (_, .list _) :: rest => countAdds rest
  | (_, .done _) :: rest => countAdds rest
  | (_, .delete _) :: rest => countAdds rest
  | (_, .modify _ _ _) :: rest => countAdds rest

/-- What one invocation does to the ids of the store: a successful `add`
assigns the id of the task it appended, a successful `delete` removes an id. -/
inductive IdEvent where
  | assigned (id : Int)
  | removed (id : Int)
  | neither
deriving DecidableEq, Repr

/-- The id event of the invocation `c` on the file `f`. -/
def idEvent (lib : TimeLib) (m : SaveMode) (c : Cmd) (f : FileState) : IdEvent :=
  match c with
  | .add name due =>
    if (handleAdd lib m f name due).exit = 0 then
      match (readTasks (handleAdd lib m f name due).file).1.getLast? with
      | some t => .assigned t.ID
      | none => .neither
    else .neither
  | .delete id => if (handleDelete m f id).exit = 0 then .removed id else .neither
  | .list _ => .neither
  | .done _ => .neither
  | .modify _ _ _ => .neither

/-- The id events of a sequence of invocations, in order. -/
def idEvents (lib : TimeLib) : List (SaveMode × Cmd) → FileState → List IdEvent
  | [], _ => []
  | (m, c) :: rest, f => idEvent lib m c f :: idEvents lib rest (run lib m c f).file

/-- The sentence "never reused after deletion" of the specification, on a
sequence of id events: an id that was assigned and later removed is not
assigned again afterwards. -/
def NeverReused (evs : List IdEvent) : Prop :=
  ∀ (i j k : Nat) (id : Int), i < j → j < k → evs[i]? = some (.assigned id) →
    evs[j]? = some (.removed id) → evs[k]? ≠ some (.assigned id)

/-- The number of days the specification states for a due date that is not
before `now`: `floor(hours_until_due / 24) + 1`, the hours until due being the
time from `now` to the due date, that is the whole days between the two
instants plus one (`/` on `Int` rounds down). -/
def specDaysLeft (due now : Int) : Int := (due - now) / (24 * hour) + 1

/-- The ids `1, 2, ..., n`. -/
def idsUpTo (n : Nat) : List Int := (List.range n).map (fun (i : Nat) => (i : Int) + 1)

/-! ## Invariant of the stores the program builds -/

/-- The ids are strictly increasing along the store and lie between `1` and
`n`. -/
def Ascending (n : Nat) (ts : List Task) : Prop :=
  (ts.map Task.ID).Pairwise (· < ·) ∧ ∀ t ∈ ts, 1 ≤ t.ID ∧ t.ID ≤ n

/-- The file loads without error and its store satisfies `Ascending n`. -/
def GoodFile (n : Nat) (f : FileState) : Prop :=
  (readTasks f).2 = none ∧ Ascending n (readTasks f).1

/-! ## Example data -/

/-- The task stored by the example `add -name "Buy milk" -due 2030-01-01` of
the specification: due on 2030-01-01 at 23:59 UTC. -/
def buyMilk : Task := ⟨1, "Buy milk", false, 64029139140000000000⟩

/-- The instant 2026-11-01T00:00:00Z. -/
def nov2026 : Int := 63929088000000000000

/-! ## Basic facts -/

theorem wrapInt_of_inRange (x : Int) (h1 : -2 ^ 63 ≤ x) (h2 : x < 2 ^ 63) : wrapInt x = x := by
  unfold wrapInt
  omega

theorem maxId_eq_last (ts : List Task) (l : Task) (hl : ts.getLast? = some l)
    (hmax : ∀ u ∈ ts, u.ID ≤ l.ID) : maxId ts = some l.ID := by
  induction ts with
  | nil => simp at hl
  | cons t ts ih =>
    cases ts with
    | nil =>
      simp at hl
      simp [maxId, hl]
    | cons t2 ts2 =>
      have hl2 : (t2 :: ts2).getLast? = some l := by
        simpa [List.getLast?_cons_cons] using hl
      have h2 := ih hl2 (fun u hu => hmax u (List.mem_cons_of_mem _ hu))
      have ht : t.ID ≤ l.ID := hmax t (List.mem_cons_self _ _)
      rw [maxId, h2]
      simp [ht]

theorem handleAdd_eq (lib : TimeLib) (m : SaveMode) (f : FileState) (name due : String)
    (hname : name ≠ "") (hdue : due = "" ∨ ∃ d, lib.parse due = .ok d) :
    ∃ dueTime : Int,
      (due = "" → dueTime = 0)
      ∧ (∀ d, due ≠ "" → lib.parse due = .ok d → dueTime = d + (23 * hour + 59 * minute))
      ∧ handleAdd lib m f name due
        = saveAndReport m f ((readTasks f).1 ++
            [⟨(match (readTasks f).1.getLast? with
                | some t => wrapInt (t.ID + 1)
                | none => 1), name, false, dueTime⟩]) .added := by
  by_cases hd : due = ""
  · refine ⟨0, fun _ => rfl, fun d h => absurd hd h, ?_⟩
    simp [handleAdd, hname, hd]
  · rcases hdue with h | ⟨d, hp⟩
    · exact absurd h hd
    · refine ⟨d + (23 * hour + 59 * minute), fun h => absurd h hd, ?_, ?_⟩
      · intro d2 _ h2
        rw [hp] at h2
        cases h2
        rfl
      · simp [handleAdd, hname, hd, hp]

theorem saveAndReport_ok (f : FileState) (tasks : List Task) (success : Msg) :
    saveAndReport .ok f tasks success = ⟨0, success, .stored tasks⟩ := rfl

theorem saveAndReport_msg (m : SaveMode) (f : FileState) (tasks : List Task) (success : Msg) :
    (saveAndReport m f tasks success).msg = success
      ∨ ∃ e, (saveAndReport m f tasks success).msg = .saveFailed e := by
  cases m with
  | ok => exact Or.inl rfl
  | createFails e => exact Or.inr ⟨e, rfl⟩
  | encodeFails e r => exact Or.inr ⟨e, rfl⟩

/-- A store that contains the id splits at the first task that has it. -/
theorem exists_first_with_id (id : Int) (ts : List Task) (h : ∃ t ∈ ts, t.ID = id) :
    ∃ pre t post, ts = pre ++ t :: post ∧ (∀ u ∈ pre, u.ID ≠ id) ∧ t.ID = id := by
  induction ts with
  | nil =>
    obtain ⟨t, ht, -⟩ := h
    simp at ht
  | cons a ts ih =>
    by_cases ha : a.ID = id
    · exact ⟨[], a, ts, rfl, by simp, ha⟩
    · have h2 : ∃ t ∈ ts, t.ID = id := by
        obtain ⟨t, ht, hid⟩ := h
        rcases List.mem_cons.mp ht with rfl | ht2
        · exact absurd hid ha
        · exact ⟨t, ht2, hid⟩
      obtain ⟨pre, t, post, hsplit, hpre, ht⟩ := ih h2
      refine ⟨a :: pre, t, post, by simp [hsplit], ?_, ht⟩
      intro u hu
      rcases List.mem_cons.mp hu with rfl | hu2
      · exact ha
      · exact hpre u hu2

theorem doneLoop_absent (id : Int) (ts : List Task) (h : ∀ t ∈ ts, t.ID ≠ id) :
    doneLoop id ts = (ts, false) := by
  induction ts with
  | nil => rfl
  | cons a ts ih =>
    have ha : a.ID ≠ id := h a (List.mem_cons_self _ _)
    have ih2 := ih (fun t ht => h t (List.mem_cons_of_mem _ ht))
    simp [doneLoop, ha, ih2]

theorem doneLoop_at (id : Int) (pre : List Task) (t : Task) (post : List Task)
    (hpre : ∀ u ∈ pre, u.ID ≠ id) (ht : t.ID = id) :
    doneLoop id (pre ++ t :: post) = (pre ++ { t with Done := true } :: post, true) := by
  induction pre with
  | nil => simp [doneLoop, ht]
  | cons a pre ih =>
    have ha : a.ID ≠ id := hpre a (List.mem_cons_self _ _)
    have ih2 := ih (fun u hu => hpre u (List.mem_cons_of_mem _ hu))
    simp [doneLoop, ha, ih2]

theorem deleteLoop_foldl (id : Int) (ts acc : List Task) (found : Bool) :
    ts.foldl (fun acc t => if t.ID = id then (acc.1, true) else (acc.1 ++ [t], acc.2))
        (acc, found)
      = (acc ++ ts.filter (fun t => decide (t.ID ≠ id)),
          found || ts.any (fun t => decide (t.ID = id))) := by
  induction ts generalizing acc found with
  | nil => simp
  | cons a ts ih =>
    by_cases ha : a.ID = id
    · simp [List.foldl_cons, ha, ih]
    · simp [List.foldl_cons, ha, ih]

theorem deleteLoop_eq (id : Int) (ts : List Task) :
    deleteLoop id ts
      = (ts.filter (fun t => decide (t.ID ≠ id)), ts.any (fun t => decide (t.ID = id))) := by
  unfold deleteLoop
  rw [deleteLoop_foldl]
  simp

theorem modifyLoop_absent (lib : TimeLib) (id : Int) (name due : String) (ts : List Task)
    (h : ∀ t ∈ ts, t.ID ≠ id) : modifyLoop lib id name due ts = .ok (ts, false) := by
  induction ts with
  | nil => rfl
  | cons a ts ih =>
    have ha : a.ID ≠ id := h a (List.mem_cons_self _ _)
    have ih2 := ih (fun t ht => h t (List.mem_cons_of_mem _ ht))
    simp [modifyLoop, ha, ih2]

theorem modifyLoop_at (lib : TimeLib) (id : Int) (name due : String) (pre : List Task) (t : Task)
    (post : List Task) (hpre : ∀ u ∈ pre, u.ID ≠ id) (ht : t.ID = id) :
    modifyLoop lib id name due (pre ++ t :: post)
      = match modifyTask lib name due t with
        | .error e => .error e
        | .ok t' => .ok (pre ++ t' :: post, true) := by
  induction pre with
  | nil => simp [modifyLoop, ht]
  | cons a pre ih =>
    have ha : a.ID ≠ id := hpre a (List.mem_cons_self _ _)
    have ih2 := ih (fun u hu => hpre u (List.mem_cons_of_mem _ hu))
    show modifyLoop lib id name due (a :: (pre ++ t :: post)) = _
    rw [modifyLoop, if_neg ha, ih2]
    cases modifyTask lib name due t <;> rfl

theorem handleDone_of_absent (m : SaveMode) (f : FileState) (ts : List Task) (id : Int)
    (hf : readTasks f = (ts, none)) (hid : id ≠ 0) (habs : ∀ t ∈ ts, t.ID ≠ id) :
    handleDone m f id = ⟨1, .notFound id, f⟩ := by
  simp only [handleDone, if_neg hid, hf, doneLoop_absent id ts habs]
  simp

theorem handleDone_of_present (m : SaveMode) (f : FileState) (pre : List Task) (t : Task)
    (post : List Task) (id : Int) (hf : readTasks f = (pre ++ t :: post, none)) (hid : id ≠ 0)
    (hpre : ∀ u ∈ pre, u.ID ≠ id) (ht : t.ID = id) :
    handleDone m f id
      = saveAndReport m f (pre ++ { t with Done := true } :: post) .markedDone := by
  simp only [handleDone, if_neg hid, hf, doneLoop_at id pre t post hpre ht]
  simp

theorem handleDelete_of_absent (m : SaveMode) (f : FileState) (ts : List Task) (id : Int)
    (hf : readTasks f = (ts, none)) (hid : id ≠ 0) (habs : ∀ t ∈ ts, t.ID ≠ id) :
    handleDelete m f id = ⟨1, .notFound id, f⟩ := by
  have hany : ts.any (fun t => decide (t.ID = id)) = false := by
    rw [List.any_eq_false]
    intro t ht
    simpa using habs t ht
  simp only [handleDelete, if_neg hid, hf, deleteLoop_eq, hany]
  simp

theorem handleDelete_of_present (m : SaveMode) (f : FileState) (ts : List Task) (id : Int)
    (hf : readTasks f = (ts, none)) (hid : id ≠ 0) (hocc : ∃ t ∈ ts, t.ID = id) :
    handleDelete m f id
      = saveAndReport m f (ts.filter (fun t => decide (t.ID ≠ id))) .deleted := by
  have hany : ts.any (fun t => decide (t.ID = id)) = true := by
    rw [List.any_eq_true]
    obtain ⟨t, ht, h⟩ := hocc
    exact ⟨t, ht, by simpa using h⟩
  simp only [handleDelete, if_neg hid, hf, deleteLoop_eq, hany]
  simp

theorem handleModify_of_absent (lib : TimeLib) (m : SaveMode) (f : FileState) (ts : List Task)
    (id : Int) (name due : String) (hf : readTasks f = (ts, none)) (hid : id ≠ 0)
    (habs : ∀ t ∈ ts, t.ID ≠ id) :
    handleModify lib m f id name due = ⟨1, .notFound id, f⟩ := by
  simp only [handleModify, if_neg hid, hf, modifyLoop_absent lib id name due ts habs]
  simp

theorem handleModify_of_present (lib : TimeLib) (m : SaveMode) (f : FileState) (pre : List Task)
    (t : Task) (post : List Task) (id : Int) (name due : String)
    (hf : readTasks f = (pre ++ t :: post, none)) (hid : id ≠ 0)
    (hpre : ∀ u ∈ pre, u.ID ≠ id) (ht : t.ID = id) :
    handleModify lib m f id name due
      = match modifyTask lib name due t with
        | .error e => ⟨1, .badDate e, f⟩
        | .ok t' => saveAndReport m f (pre ++ t' :: post) .modified := by
  simp only [handleModify, if_neg hid, hf, modifyLoop_at lib id name due pre t post hpre ht]
  cases modifyTask lib name due t <;> simp

theorem modifyTask_ok (lib : TimeLib) (name due : String) (t : Task)
    (hdue : due = "" ∨ ∃ d, lib.parse due = .ok d) :
    ∃ t', modifyTask lib name due t = .ok t'
      ∧ t'.ID = t.ID ∧ t'.Done = t.Done
      ∧ (due = "" → t'.Due = t.Due)
      ∧ (name = "" → t'.Name = t.Name)
      ∧ (name ≠ "" → t'.Name = name)
      ∧ (∀ d, due ≠ "" → lib.parse due = .ok d → t'.Due = d + 23 * hour)
      ∧ (name = "" → due = "" → t' = t) := by
  by_cases hd : due = ""
  · by_cases hn : name = ""
    · exact ⟨t, by simp [modifyTask, hd, hn], rfl, rfl, fun _ => rfl, fun _ => rfl,
        fun h => absurd hn h, fun d h => absurd hd h, fun _ _ => rfl⟩
    · exact ⟨{ t with Name := name }, by simp [modifyTask, hd, hn], rfl, rfl, fun _ => rfl,
        fun h => absurd h hn, fun _ => rfl, fun d h => absurd hd h, fun h => absurd h hn⟩
  · rcases hdue with h | ⟨d, hp⟩
    · exact absurd h hd
    · by_cases hn : name = ""
      · refine ⟨{ t with Due := d + 23 * hour }, by simp [modifyTask, hd, hn, hp], rfl, rfl,
          fun h => absurd h hd, fun _ => rfl, fun h => absurd hn h, ?_, fun _ h => absurd h hd⟩
        intro d2 _ h2
        rw [hp] at h2
        cases h2
        rfl
      · refine ⟨{ t with Name := name, Due := d + 23 * hour }, by simp [modifyTask, hd, hn, hp],
          rfl, rfl, fun h => absurd h hd, fun h => absurd h hn, fun _ => rfl, ?_,
          fun h => absurd h hn⟩
        intro d2 _ h2
        rw [hp] at h2
        cases h2
        rfl

theorem saveAndReport_success (m : SaveMode) (f : FileState) (tasks : List Task) (success : Msg)
    (h : (saveAndReport m f tasks success).exit = 0) :
    saveAndReport m f tasks success = ⟨0, success, .stored tasks⟩ := by
  cases m with
  | ok => rfl
  | createFails e => simp [saveAndReport, saveTasks] at h
  | encodeFails e r => simp [saveAndReport, saveTasks] at h

theorem handleAdd_success (lib : TimeLib) (m : SaveMode) (f : FileState) (name due : String)
    (h : (handleAdd lib m f name due).exit = 0) :
    ∃ dueTime : Int,
      handleAdd lib m f name due
        = ⟨0, .added, .stored ((readTasks f).1 ++
            [⟨(match (readTasks f).1.getLast? with
                | some t => wrapInt (t.ID + 1)
                | none => 1), name, false, dueTime⟩])⟩ := by
  by_cases hname : name = ""
  · simp [handleAdd, hname] at h
  · have hdue : due = "" ∨ ∃ d, lib.parse due = .ok d := by
      by_cases hd : due = ""
      · exact Or.inl hd
      · cases hp : lib.parse due with
        | error e => simp [handleAdd, hname, hd, hp] at h
        | ok d => exact Or.inr ⟨d, rfl⟩
    obtain ⟨dueTime, -, -, heq⟩ := handleAdd_eq lib m f name due hname hdue
    rw [heq] at h
    exact ⟨dueTime, by rw [heq, saveAndReport_success m f _ .added h]⟩

theorem le_last_of_pairwise (ts : List Task) (l : Task) (hl : ts.getLast? = some l)
    (hp : (ts.map Task.ID).Pairwise (· < ·)) : ∀ u ∈ ts, u.ID ≤ l.ID := by
  induction ts with
  | nil => simp at hl
  | cons t ts ih =>
    cases ts with
    | nil =>
      simp at hl
      intro u hu
      simp at hu
      rw [hu, hl]
    | cons t2 ts2 =>
      have hl2 : (t2 :: ts2).getLast? = some l := by
        simpa [List.getLast?_cons_cons] using hl
      have hp2 : ((t2 :: ts2).map Task.ID).Pairwise (· < ·) := by
        rw [List.map_cons] at hp
        exact (List.pairwise_cons.mp hp).2
      have h2 := ih hl2 hp2
      have hmem : l ∈ t2 :: ts2 := List.mem_of_getLast?_eq_some hl2
      intro u hu
      rcases List.mem_cons.mp hu with rfl | hu2
      · rw [List.map_cons] at hp
        have := (List.pairwise_cons.mp hp).1 l.ID (List.mem_map_of_mem _ hmem)
        omega
      · exact h2 u hu2

/-- A successful `add` on a store that satisfies the invariant appends a task
whose id is above every stored id, and the invariant is kept. -/
theorem handleAdd_ascending (lib : TimeLib) (m : SaveMode) (f : FileState) (name due : String)
    (n : Nat) (hn : n + 1 < 2 ^ 63) (hasc : Ascending n (readTasks f).1)
    (h : (handleAdd lib m f name due).exit = 0) :
    ∃ t : Task, handleAdd lib m f name due = ⟨0, .added, .stored ((readTasks f).1 ++ [t])⟩
      ∧ (∀ u ∈ (readTasks f).1, u.ID < t.ID) ∧ 1 ≤ t.ID ∧ t.ID ≤ n + 1
      ∧ (∀ l, (readTasks f).1.getLast? = some l → t.ID = l.ID + 1)
      ∧ ((readTasks f).1 = [] → t.ID = 1) := by
  obtain ⟨dueTime, heq⟩ := handleAdd_success lib m f name due h
  refine ⟨_, heq, ?_⟩
  cases hlast : (readTasks f).1.getLast? with
  | none =>
    have hnil : (readTasks f).1 = [] := List.getLast?_eq_none_iff.mp hlast
    rw [hnil]
    dsimp only
    exact ⟨by simp, le_refl _, by omega, by simp, fun _ => rfl⟩
  | some l =>
    have hmem : l ∈ (readTasks f).1 := List.mem_of_getLast?_eq_some hlast
    have hrange := hasc.2 l hmem
    have hw : wrapInt (l.ID + 1) = l.ID + 1 :=
      wrapInt_of_inRange _ (by omega) (by omega)
    dsimp only
    rw [hw]
    refine ⟨?_, by omega, by omega, ?_, ?_⟩
    · intro u hu
      have := le_last_of_pairwise _ l hlast hasc.1 u hu
      omega
    · intro l2 hl2
      cases hl2
      rfl
    · intro hnil
      rw [hnil] at hmem
      simp at hmem

theorem ascending_append (n : Nat) (ts : List Task) (t : Task) (h : Ascending n ts)
    (habove : ∀ u ∈ ts, u.ID < t.ID) (h1 : 1 ≤ t.ID) (h2 : t.ID ≤ n + 1) :
    Ascending (n + 1) (ts ++ [t]) := by
  constructor
  · rw [List.map_append, List.pairwise_append]
    refine ⟨h.1, by simp, ?_⟩
    intro a ha b hb
    obtain ⟨u, hu, rfl⟩ := List.mem_map.mp ha
    simp at hb
    rw [hb]
    exact habove u hu
  · intro u hu
    rcases List.mem_append.mp hu with hu1 | hu1
    · have := h.2 u hu1
      exact ⟨this.1, by push_cast; omega⟩
    · simp at hu1
      rw [hu1]
      exact ⟨h1, by push_cast; omega⟩

theorem ascending_of_map_eq (n : Nat) (ts ts2 : List Task)
    (hmap : ts2.map Task.ID = ts.map Task.ID) (h : Ascending n ts) : Ascending n ts2 := by
  constructor
  · rw [hmap]
    exact h.1
  · intro t ht
    have hmem : t.ID ∈ ts.map Task.ID := by
      rw [← hmap]
      exact List.mem_map_of_mem _ ht
    obtain ⟨u, hu, hid⟩ := List.mem_map.mp hmem
    rw [← hid]
    exact h.2 u hu

theorem ascending_filter (n : Nat) (ts : List Task) (p : Task → Bool) (h : Ascending n ts) :
    Ascending n (ts.filter p) :=
  ⟨List.Pairwise.sublist ((List.filter_sublist ts).map Task.ID) h.1,
    fun t ht => h.2 t (List.mem_of_mem_filter ht)⟩

theorem handleList_file (lib : TimeLib) (f : FileState) (now : Int) :
    (handleList lib f now).file = f := by
  unfold handleList
  split
  · rfl
  · split <;> rfl

theorem modifyTask_id (lib : TimeLib) (name due : String) (t t' : Task)
    (h : modifyTask lib name due t = .ok t') : t'.ID = t.ID := by
  unfold modifyTask at h
  split_ifs at h with hd hn
  · cases hp : lib.parse due with
    | error e => simp [hp] at h
    | ok d =>
      simp [hp] at h
      rw [← h]
  · cases hp : lib.parse due with
    | error e => simp [hp] at h
    | ok d =>
      simp [hp] at h
      rw [← h]
  · simp at h
    rw [← h]
  · simp at h
    rw [← h]

theorem readTasks_eq_of_good (n : Nat) (f : FileState) (h : GoodFile n f) :
    readTasks f = ((readTasks f).1, none) :=
  Prod.ext rfl h.1

theorem goodFile_stored (n : Nat) (ts : List Task) (h : Ascending n ts) :
    GoodFile n (.stored ts) :=
  ⟨rfl, h⟩

theorem countAdds_cons (m : SaveMode) (c : Cmd) (rest : List (SaveMode × Cmd)) :
    countAdds ((m, c) :: rest) = countAdds [(m, c)] + countAdds rest := by
  cases c <;> simp [countAdds, Nat.add_comm]

/-- One successful invocation keeps the invariant; the bound on the ids grows
by one exactly for `add`. -/
theorem run_good (lib : TimeLib) (m : SaveMode) (c : Cmd) (f : FileState) (n : Nat)
    (hgood : GoodFile n f) (hn : n + countAdds [(m, c)] < 2 ^ 63)
    (h : (run lib m c f).exit = 0) :
    GoodFile (n + countAdds [(m, c)]) (run lib m c f).file := by
  have hf := readTasks_eq_of_good n f hgood
  cases c with
  | add name due =>
    simp only [countAdds] at hn ⊢
    simp only [run] at h ⊢
    obtain ⟨t, heq, habove, h1, h2, -, -⟩ :=
      handleAdd_ascending lib m f name due n (by omega) hgood.2 h
    rw [heq]
    exact goodFile_stored _ _ (ascending_append n _ t hgood.2 habove h1 h2)
  | list now =>
    simp only [countAdds, run, handleList_file]
    exact hgood
  | done id =>
    simp only [countAdds, run, Nat.add_zero] at h ⊢
    by_cases hid : id = 0
    · simp [handleDone, hid] at h
    · by_cases habs : ∀ t ∈ (readTasks f).1, t.ID ≠ id
      · rw [handleDone_of_absent m f _ id hf hid habs] at h
        simp at h
      · have hocc : ∃ t ∈ (readTasks f).1, t.ID = id := by
          by_contra h2
          exact habs (fun t ht heq => h2 ⟨t, ht, heq⟩)
        obtain ⟨pre, t, post, hsplit, hpre, ht⟩ := exists_first_with_id id _ hocc
        have hrun := handleDone_of_present m f pre t post id (by rw [← hsplit]; exact hf) hid
          hpre ht
        rw [hrun] at h ⊢
        rw [saveAndReport_success m f _ _ h]
        refine goodFile_stored _ _ (ascending_of_map_eq n (readTasks f).1 _ ?_ hgood.2)
        rw [hsplit]
        simp
  | delete id =>
    simp only [countAdds, run, Nat.add_zero] at h ⊢
    by_cases hid : id = 0
    · simp [handleDelete, hid] at h
    · by_cases habs : ∀ t ∈ (readTasks f).1, t.ID ≠ id
      · rw [handleDelete_of_absent m f _ id hf hid habs] at h
        simp at h
      · have hocc : ∃ t ∈ (readTasks f).1, t.ID = id := by
          by_contra h2
          exact habs (fun t ht heq => h2 ⟨t, ht, heq⟩)
        have hrun := handleDelete_of_present m f _ id hf hid hocc
        rw [hrun] at h ⊢
        rw [saveAndReport_success m f _ _ h]
        exact goodFile_stored _ _ (ascending_filter n _ _ hgood.2)
  | modify id name due =>
    simp only [countAdds, run, Nat.add_zero] at h ⊢
    by_cases hid : id = 0
    · simp [handleModify, hid] at h
    · by_cases habs : ∀ t ∈ (readTasks f).1, t.ID ≠ id
      · rw [handleModify_of_absent lib m f _ id name due hf hid habs] at h
        simp at h
      · have hocc : ∃ t ∈ (readTasks f).1, t.ID = id := by
          by_contra h2
          exact habs (fun t ht heq => h2 ⟨t, ht, heq⟩)
        obtain ⟨pre, t, post, hsplit, hpre, ht⟩ := exists_first_with_id id _ hocc
        have hrun := handleModify_of_present lib m f pre t post id name due
          (by rw [← hsplit]; exact hf) hid hpre ht
        rw [hrun] at h ⊢
        cases hmod : modifyTask lib name due t with
        | error e =>
          rw [hmod] at h
          simp at h
        | ok t' =>
          rw [hmod] at h
          simp only at h ⊢
          rw [saveAndReport_success m f _ _ h]
          refine goodFile_stored _ _ (ascending_of_map_eq n (readTasks f).1 _ ?_ hgood.2)
          rw [hsplit]
          simp [modifyTask_id lib name due t t' hmod]

/-- A sequence of successful invocations keeps the invariant. -/
theorem runAll_good (lib : TimeLib) (ops : List (SaveMode × Cmd)) (f0 f : FileState) (n : Nat)
    (hgood : GoodFile n f0) (hn : n + countAdds ops < 2 ^ 63)
    (hrun : runAll lib ops f0 = some f) : GoodFile (n + countAdds ops) f := by
  induction ops generalizing f0 n with
  | nil =>
    simp only [runAll] at hrun
    cases hrun
    simpa [countAdds] using hgood
  | cons op rest ih =>
    obtain ⟨m, c⟩ := op
    rw [countAdds_cons] at hn ⊢
    simp only [runAll] at hrun
    by_cases hex : (run lib m c f0).exit = 0
    · rw [if_pos hex] at hrun
      have hstep := run_good lib m c f0 n hgood (by omega) hex
      have := ih (run lib m c f0).file (n + countAdds [(m, c)]) hstep (by omega) hrun
      rw [← Nat.add_assoc]
      exact this
    · rw [if_neg hex] at hrun
      cases hrun

theorem goodFile_absent : GoodFile 0 .absent :=
  ⟨rfl, by simp [readTasks, Ascending]⟩

theorem nodup_of_ascending (n : Nat) (ts : List Task) (h : Ascending n ts) :
    (ts.map Task.ID).Nodup :=
  List.Pairwise.imp (fun hab => ne_of_lt hab) h.1

theorem idsUpTo_succ (k : Nat) : idsUpTo (k + 1) = idsUpTo k ++ [(k : Int) + 1] := by
  simp [idsUpTo, List.range_succ]

theorem length_idsUpTo (k : Nat) : (idsUpTo k).length = k := by
  unfold idsUpTo
  rw [List.length_map, List.length_range]

theorem mem_idsUpTo (k : Nat) (x : Int) (h : x ∈ idsUpTo k) : 1 ≤ x ∧ x ≤ k := by
  unfold idsUpTo at h
  rw [List.mem_map] at h
  obtain ⟨i, hi, hid⟩ := h
  have := List.mem_range.mp hi
  omega

theorem ascending_of_idsUpTo (k : Nat) (ts : List Task) (h : ts.map Task.ID = idsUpTo k) :
    Ascending k ts := by
  constructor
  · rw [h, idsUpTo, List.pairwise_map]
    refine List.Pairwise.imp ?_ (List.pairwise_lt_range k)
    intro a b hab
    show (a : Int) + 1 < (b : Int) + 1
    omega
  · intro t ht
    have hmem : t.ID ∈ idsUpTo k := by
      rw [← h]
      exact List.mem_map_of_mem _ ht
    exact mem_idsUpTo k _ hmem

theorem last_of_idsUpTo (k : Nat) (ts : List Task) (h : ts.map Task.ID = idsUpTo (k + 1)) :
    ∃ l, ts.getLast? = some l ∧ l.ID = (k : Int) + 1 := by
  have h2 : (ts.map Task.ID).getLast? = some ((k : Int) + 1) := by
    rw [h, idsUpTo_succ, List.getLast?_concat]
  rw [List.getLast?_map] at h2
  cases hl : ts.getLast? with
  | none => simp [hl] at h2
  | some l =>
    simp [hl] at h2
    exact ⟨l, rfl, h2⟩

/-- Successful `add` invocations on a store with ids `1..k` give ids
`1..k + number of invocations`. -/
theorem runAll_adds (lib : TimeLib) (ops : List (SaveMode × Cmd)) (f0 f : FileState)
    (k : Nat) (h0 : (readTasks f0).2 = none) (hids : (readTasks f0).1.map Task.ID = idsUpTo k)
    (hk : k + ops.length < 2 ^ 63) (hadds : ∀ op ∈ ops, ∃ name due, op.2 = .add name due)
    (hrun : runAll lib ops f0 = some f) :
    (readTasks f).2 = none ∧ (readTasks f).1.map Task.ID = idsUpTo (k + ops.length)
      ∧ (ops ≠ [] → f = .stored (readTasks f).1) := by
  induction ops generalizing f0 k with
  | nil =>
    simp only [runAll] at hrun
    cases hrun
    exact ⟨h0, by simpa using hids, fun h => absurd rfl h⟩
  | cons op rest ih =>
    obtain ⟨m, c⟩ := op
    obtain ⟨name, due, hc⟩ := hadds (m, c) (List.mem_cons_self _ _)
    simp only at hc
    subst hc
    simp only [List.length_cons] at hk ⊢
    simp only [runAll] at hrun
    by_cases hex : (run lib m (.add name due) f0).exit = 0
    · rw [if_pos hex] at hrun
      simp only [run] at hex hrun
      obtain ⟨t, heq, -, -, -, hlast, hnil⟩ :=
        handleAdd_ascending lib m f0 name due k (by omega)
          (ascending_of_idsUpTo k _ hids) hex
      have htid : t.ID = (k : Int) + 1 := by
        cases k with
        | zero =>
          have : (readTasks f0).1 = [] := by
            simpa [idsUpTo] using hids
          simpa using hnil this
        | succ j =>
          obtain ⟨l, hl, hlid⟩ := last_of_idsUpTo j _ hids
          rw [hlast l hl, hlid]
          push_cast
          ring
      rw [heq] at hrun
      have hids2 : (readTasks (.stored ((readTasks f0).1 ++ [t]))).1.map Task.ID
          = idsUpTo (k + 1) := by
        show ((readTasks f0).1 ++ [t]).map Task.ID = idsUpTo (k + 1)
        rw [List.map_append, hids, idsUpTo_succ, List.map_cons, List.map_nil, htid]
      have hres := ih (.stored ((readTasks f0).1 ++ [t])) (k + 1) rfl hids2 (by omega)
        (fun op hop => hadds op (List.mem_cons_of_mem _ hop)) hrun
      refine ⟨hres.1, ?_, fun _ => ?_⟩
      · have : k + (rest.length + 1) = k + 1 + rest.length := by omega
        rw [this]
        exact hres.2.1
      · cases rest with
        | nil =>
          simp only [runAll] at hrun
          cases hrun
          rfl
        | cons op2 rest2 => exact hres.2.2 (by simp)
    · rw [if_neg hex] at hrun
      cases hrun

/-! ## float64 rounding and the number of days left -/

theorem roundHalfEven_bounds (x : ℚ) : ⌊x⌋ ≤ roundHalfEven x ∧ roundHalfEven x ≤ ⌊x⌋ + 1 := by
  unfold roundHalfEven
  split_ifs <;> constructor <;> omega

theorem roundHalfEven_intCast (n : Int) : roundHalfEven (n : ℚ) = n := by
  unfold roundHalfEven
  simp

theorem roundHalfEven_mono (x y : ℚ) (h : x ≤ y) : roundHalfEven x ≤ roundHalfEven y := by
  have hfl : ⌊x⌋ ≤ ⌊y⌋ := Int.floor_le_floor h
  rcases lt_or_eq_of_le hfl with hlt | heq
  · have h1 := (roundHalfEven_bounds x).2
    have h2 := (roundHalfEven_bounds y).1
    omega
  · unfold roundHalfEven
    rw [heq]
    have hx : x - ⌊y⌋ ≤ y - ⌊y⌋ := by linarith
    split_ifs <;> first | omega | (exfalso; linarith)

theorem roundHalfEven_le_of_le (x : ℚ) (n : Int) (h : x ≤ n) : roundHalfEven x ≤ n := by
  have := roundHalfEven_mono x n h
  rwa [roundHalfEven_intCast] at this

theorem le_roundHalfEven_of_le (x : ℚ) (n : Int) (h : (n : ℚ) ≤ x) : n ≤ roundHalfEven x := by
  have := roundHalfEven_mono n x h
  rwa [roundHalfEven_intCast] at this

theorem roundFloat64_zero : roundFloat64 0 = 0 := by
  simp [roundFloat64]

theorem quantum_pos (e : Int) : (0 : ℚ) < 2 ^ e := by positivity

/-- The result of rounding a positive value stays in the closed binade of the value. -/
theorem roundFloat64_binade (x : ℚ) (hx : 0 < x) :
    (2 : ℚ) ^ Int.log 2 x ≤ roundFloat64 x ∧ roundFloat64 x ≤ 2 ^ (Int.log 2 x + 1) := by
  have hne : x ≠ 0 := ne_of_gt hx
  have habs : |x| = x := abs_of_pos hx
  have hq : (0 : ℚ) < 2 ^ (Int.log 2 x - 52) := quantum_pos _
  have hlo : (2 : ℚ) ^ Int.log 2 x ≤ x := by
    have := Int.zpow_log_le_self (b := 2) (r := x) (by norm_num) hx
    simpa using this
  have hhi : x < (2 : ℚ) ^ (Int.log 2 x + 1) := by
    have := Int.lt_zpow_succ_log_self (b := 2) (by norm_num) x
    simpa using this
  have e1 : (2 : ℚ) ^ Int.log 2 x = ((2 ^ 52 : Int) : ℚ) * 2 ^ (Int.log 2 x - 52) := by
    have : Int.log 2 x = 52 + (Int.log 2 x - 52) := by ring
    conv_lhs => rw [this, zpow_add₀ (by norm_num : (2 : ℚ) ≠ 0)]
    norm_num
  have e2 : (2 : ℚ) ^ (Int.log 2 x + 1) = ((2 ^ 53 : Int) : ℚ) * 2 ^ (Int.log 2 x - 52) := by
    have : Int.log 2 x + 1 = 53 + (Int.log 2 x - 52) := by ring
    conv_lhs => rw [this, zpow_add₀ (by norm_num : (2 : ℚ) ≠ 0)]
    norm_num
  unfold roundFloat64
  rw [if_neg hne, habs, e1, e2]
  constructor
  · apply mul_le_mul_of_nonneg_right _ hq.le
    have : ((2 ^ 52 : Int) : ℚ) ≤ x / 2 ^ (Int.log 2 x - 52) := by
      rw [le_div_iff₀ hq, ← e1]
      exact hlo
    exact_mod_cast le_roundHalfEven_of_le _ _ this
  · apply mul_le_mul_of_nonneg_right _ hq.le
    have : x / 2 ^ (Int.log 2 x - 52) ≤ ((2 ^ 53 : Int) : ℚ) := by
      rw [div_le_iff₀ hq, ← e2]
      exact hhi.le
    exact_mod_cast roundHalfEven_le_of_le _ _ this

theorem roundFloat64_nonneg (x : ℚ) (hx : 0 ≤ x) : 0 ≤ roundFloat64 x := by
  rcases eq_or_lt_of_le hx with h | h
  · rw [← h, roundFloat64_zero]
  · exact le_trans (quantum_pos _).le (roundFloat64_binade x h).1

/-- Rounding to float64 is monotone on the non-negative values. -/
theorem roundFloat64_mono (x y : ℚ) (hx : 0 ≤ x) (hxy : x ≤ y) :
    roundFloat64 x ≤ roundFloat64 y := by
  rcases eq_or_lt_of_le hx with h | hpos
  · rw [← h, roundFloat64_zero]
    exact roundFloat64_nonneg y (le_trans hx hxy)
  · have hy : 0 < y := lt_of_lt_of_le hpos hxy
    have hlog : Int.log 2 x ≤ Int.log 2 y := Int.log_mono_right hpos hxy
    rcases lt_or_eq_of_le hlog with hlt | heq
    · have h1 := (roundFloat64_binade x hpos).2
      have h2 := (roundFloat64_binade y hy).1
      have h3 : (2 : ℚ) ^ (Int.log 2 x + 1) ≤ 2 ^ Int.log 2 y :=
        zpow_le_zpow_right₀ (by norm_num) (by omega)
      linarith
    · unfold roundFloat64
      rw [if_neg (ne_of_gt hpos), if_neg (ne_of_gt hy), abs_of_pos hpos, abs_of_pos hy, heq]
      have hq : (0 : ℚ) < 2 ^ (Int.log 2 y - 52) := quantum_pos _
      apply mul_le_mul_of_nonneg_right _ hq.le
      have : x / 2 ^ (Int.log 2 y - 52) ≤ y / 2 ^ (Int.log 2 y - 52) :=
        div_le_div_of_nonneg_right hxy hq.le
      exact_mod_cast roundHalfEven_mono _ _ this

/-- A value `m * 2^j` with `m < 2^53` is a float64: rounding leaves it unchanged. -/
theorem roundFloat64_dyadic (m : Nat) (j : Int) (hm : m < 2 ^ 53) :
    roundFloat64 ((m : ℚ) * 2 ^ j) = (m : ℚ) * 2 ^ j := by
  rcases Nat.eq_zero_or_pos m with h0 | hpos
  · subst h0
    simp [roundFloat64_zero]
  · have hx : (0 : ℚ) < (m : ℚ) * 2 ^ j := by positivity
    have hlt : (m : ℚ) * 2 ^ j < ((2 : Nat) : ℚ) ^ (53 + j) := by
      rw [zpow_add₀ (by norm_num)]
      apply mul_lt_mul_of_pos_right _ (by positivity)
      have : (m : ℚ) < ((2 ^ 53 : Nat) : ℚ) := by exact_mod_cast hm
      norm_num at this ⊢
      exact this
    have hlog : Int.log 2 ((m : ℚ) * 2 ^ j) < 53 + j :=
      (Int.lt_zpow_iff_log_lt (by norm_num) hx).mp hlt
    obtain ⟨k, hk⟩ : ∃ k : Nat, j - (Int.log 2 ((m : ℚ) * 2 ^ j) - 52) = k :=
      ⟨(j - (Int.log 2 ((m : ℚ) * 2 ^ j) - 52)).toNat, by omega⟩
    have hq : (0 : ℚ) < 2 ^ (Int.log 2 ((m : ℚ) * 2 ^ j) - 52) := quantum_pos _
    have hdiv : (m : ℚ) * 2 ^ j / 2 ^ (Int.log 2 ((m : ℚ) * 2 ^ j) - 52)
        = ((m * 2 ^ k : Int) : ℚ) := by
      rw [mul_div_assoc, ← zpow_sub₀ (by norm_num : (2 : ℚ) ≠ 0), hk]
      push_cast
      rw [zpow_natCast]
    unfold roundFloat64
    rw [if_neg (ne_of_gt hx), abs_of_pos hx, hdiv, roundHalfEven_intCast, ← hdiv]
    field_simp

theorem roundFloat64_natCast (n : Nat) (hn : n < 2 ^ 53) : roundFloat64 (n : ℚ) = n := by
  have := roundFloat64_dyadic n 0 hn
  simpa using this

theorem roundFloat64_intCast (n : Int) (h0 : 0 ≤ n) (hn : n < 2 ^ 53) :
    roundFloat64 (n : ℚ) = n := by
  obtain ⟨k, rfl⟩ := Int.eq_ofNat_of_zero_le h0
  have := roundFloat64_natCast k (by exact_mod_cast hn)
  exact_mod_cast this

theorem hour_eq : hour = 3600000000000 := by decide

theorem timeSub_bounds (due now : Int) (h : now ≤ due) :
    0 ≤ timeSub due now ∧ timeSub due now ≤ maxDuration
      ∧ (due - now ≤ maxDuration → timeSub due now = due - now)
      ∧ (maxDuration < due - now → timeSub due now = maxDuration) := by
  unfold timeSub minDuration maxDuration
  split_ifs <;> refine ⟨?_, ?_, ?_, ?_⟩ <;> intros <;> omega

/-- The float64 number of hours of a non-negative duration lies between the
whole hours of the duration and one more. -/
theorem Hours_bounds (d : Int) (h0 : 0 ≤ d) (h1 : d ≤ maxDuration) :
    ((d / 3600000000000 : Int) : ℚ) ≤ Hours d
      ∧ Hours d ≤ ((d / 3600000000000 : Int) : ℚ) + 1 := by
  have hmax : maxDuration = 2 ^ 63 - 1 := rfl
  unfold Hours
  rw [Int.tdiv_eq_ediv h0 (by decide), Int.tmod_eq_emod h0 (by decide), hour_eq]
  have hhr0 : 0 ≤ d / 3600000000000 := by omega
  have hhr1 : d / 3600000000000 < 2 ^ 53 := by omega
  have hns0 : 0 ≤ d % 3600000000000 := by omega
  have hns1 : d % 3600000000000 < 3600000000000 := by omega
  rw [roundFloat64_intCast _ hhr0 hhr1, roundFloat64_intCast _ hns0 (by omega)]
  have hfrac0 : (0 : ℚ) ≤ ((d % 3600000000000 : Int) : ℚ) / 3600000000000 := by
    apply div_nonneg
    · exact_mod_cast hns0
    · norm_num
  have hfrac1 : ((d % 3600000000000 : Int) : ℚ) / 3600000000000 ≤ 1 := by
    rw [div_le_one (by norm_num)]
    exact_mod_cast hns1.le
  have hc0 := roundFloat64_nonneg _ hfrac0
  have hc1 : roundFloat64 (((d % 3600000000000 : Int) : ℚ) / 3600000000000) ≤ 1 := by
    have := roundFloat64_mono _ 1 hfrac0 hfrac1
    have h1 : roundFloat64 (1 : ℚ) = 1 := by
      have := roundFloat64_natCast 1 (by norm_num)
      simpa using this
    rwa [h1] at this
  have hhrq : (0 : ℚ) ≤ ((d / 3600000000000 : Int) : ℚ) := by exact_mod_cast hhr0
  constructor
  · have := roundFloat64_mono ((d / 3600000000000 : Int) : ℚ) _ hhrq
      (le_add_of_nonneg_right hc0)
    rwa [roundFloat64_intCast _ hhr0 hhr1] at this
  · have := roundFloat64_mono _ (((d / 3600000000000 + 1 : Int)) : ℚ)
      (add_nonneg hhrq hc0) (by push_cast; linarith)
    rw [roundFloat64_intCast _ (by omega) (by omega)] at this
    push_cast at this
    exact this

theorem truncInt_bounds (x : ℚ) (a b : Int) (h0 : 0 ≤ x) (ha : (a : ℚ) ≤ x) (hb : x ≤ b) :
    a ≤ truncInt x ∧ truncInt x ≤ b := by
  unfold truncInt
  rw [if_pos h0]
  constructor
  · exact Int.le_floor.mpr ha
  · have := Int.floor_le_floor hb
    rwa [Int.floor_intCast] at this

/-- The number of days computed by `handleList` for a due date that is not
before `now` is the number of whole days of the (saturated) time until due,
plus one, or plus two. -/
theorem daysLeft_bounds (due now : Int) (h : now ≤ due) :
    timeSub due now / 86400000000000 + 1 ≤ daysLeft due now
      ∧ daysLeft due now ≤ timeSub due now / 86400000000000 + 2 := by
  obtain ⟨h0, h1, -, -⟩ := timeSub_bounds due now h
  have hmax : maxDuration = 2 ^ 63 - 1 := rfl
  obtain ⟨hH0, hH1⟩ := Hours_bounds (timeSub due now) h0 h1
  unfold daysLeft
  generalize timeSub due now = d at *
  have hq0 : 0 ≤ d / 86400000000000 := by omega
  have hrel1 : 24 * (d / 86400000000000) ≤ d / 3600000000000 := by omega
  have hrel2 : d / 3600000000000 + 1 ≤ 24 * (d / 86400000000000 + 1) := by omega
  have hlo : ((d / 86400000000000 : Int) : ℚ) ≤ Hours d / 24 := by
    rw [le_div_iff₀ (by norm_num)]
    have : ((24 * (d / 86400000000000) : Int) : ℚ) ≤ ((d / 3600000000000 : Int) : ℚ) := by
      exact_mod_cast hrel1
    push_cast at this
    linarith
  have hhi : Hours d / 24 ≤ ((d / 86400000000000 + 1 : Int) : ℚ) := by
    rw [div_le_iff₀ (by norm_num)]
    have : ((d / 3600000000000 + 1 : Int) : ℚ) ≤ ((24 * (d / 86400000000000 + 1) : Int) : ℚ) := by
      exact_mod_cast hrel2
    push_cast at this ⊢
    linarith
  have hq0q : (0 : ℚ) ≤ ((d / 86400000000000 : Int) : ℚ) := by exact_mod_cast hq0
  have hG0 := roundFloat64_mono _ _ hq0q hlo
  rw [roundFloat64_intCast _ hq0 (by omega)] at hG0
  have hG1 := roundFloat64_mono _ _ (le_trans hq0q hlo) hhi
  rw [roundFloat64_intCast _ (by omega) (by omega)] at hG1
  have := truncInt_bounds _ _ _ (le_trans hq0q hG0) hG0 hG1
  omega

theorem roundHalfEven_le_add_half (x : ℚ) : (roundHalfEven x : ℚ) ≤ x + 1 / 2 := by
  have hfl : ((⌊x⌋ : Int) : ℚ) ≤ x := Int.floor_le x
  unfold roundHalfEven
  split_ifs <;> push_cast <;> linarith

/-- Rounding a non-negative value to float64 increases it by at most the
relative amount `2⁻⁵³`. -/
theorem roundFloat64_le_rel (x : ℚ) (hx : 0 ≤ x) : roundFloat64 x ≤ x * (1 + 1 / 2 ^ 53) := by
  rcases eq_or_lt_of_le hx with h | hpos
  · rw [← h, roundFloat64_zero]
    norm_num
  · have hq : (0 : ℚ) < 2 ^ (Int.log 2 x - 52) := quantum_pos _
    have hlo : (2 : ℚ) ^ Int.log 2 x ≤ x := by
      have := Int.zpow_log_le_self (b := 2) (r := x) (by norm_num) hpos
      simpa using this
    have e1 : (2 : ℚ) ^ Int.log 2 x = 2 ^ 52 * 2 ^ (Int.log 2 x - 52) := by
      have : Int.log 2 x = 52 + (Int.log 2 x - 52) := by ring
      conv_lhs => rw [this, zpow_add₀ (by norm_num : (2 : ℚ) ≠ 0)]
      norm_num
    have hr := roundHalfEven_le_add_half (x / 2 ^ (Int.log 2 x - 52))
    have h1 : (roundHalfEven (x / 2 ^ (Int.log 2 x - 52)) : ℚ) * 2 ^ (Int.log 2 x - 52)
        ≤ (x / 2 ^ (Int.log 2 x - 52) + 1 / 2) * 2 ^ (Int.log 2 x - 52) :=
      mul_le_mul_of_nonneg_right hr hq.le
    have h2 : (x / 2 ^ (Int.log 2 x - 52) + 1 / 2) * 2 ^ (Int.log 2 x - 52)
        = x + 2 ^ (Int.log 2 x - 52) / 2 := by
      rw [add_mul, div_mul_cancel₀ _ (ne_of_gt hq)]
      ring
    unfold roundFloat64
    rw [if_neg (ne_of_gt hpos), abs_of_pos hpos]
    rw [e1] at hlo
    have h3 : (2 : ℚ) ^ (Int.log 2 x - 52) / 2 ≤ x * (1 / 2 ^ 53) := by
      have : (2 : ℚ) ^ (Int.log 2 x - 52) ≤ x / 2 ^ 52 := by
        rw [le_div_iff₀ (by positivity)]
        linarith
      calc (2 : ℚ) ^ (Int.log 2 x - 52) / 2 ≤ x / 2 ^ 52 / 2 := by linarith
        _ = x * (1 / 2 ^ 53) := by ring
    linarith

theorem Hours_le_rel (d : Int) (h0 : 0 ≤ d) (h1 : d ≤ maxDuration) :
    Hours d ≤ (d : ℚ) / 3600000000000 * (1 + 1 / 2 ^ 53) ^ 2 := by
  have hmax : maxDuration = 2 ^ 63 - 1 := rfl
  unfold Hours
  rw [Int.tdiv_eq_ediv h0 (by decide), Int.tmod_eq_emod h0 (by decide), hour_eq]
  have hhr0 : 0 ≤ d / 3600000000000 := by omega
  have hhr1 : d / 3600000000000 < 2 ^ 53 := by omega
  have hns0 : 0 ≤ d % 3600000000000 := by omega
  have hns1 : d % 3600000000000 < 3600000000000 := by omega
  rw [roundFloat64_intCast _ hhr0 hhr1, roundFloat64_intCast _ hns0 (by omega)]
  have hfrac0 : (0 : ℚ) ≤ ((d % 3600000000000 : Int) : ℚ) / 3600000000000 := by
    apply div_nonneg
    · exact_mod_cast hns0
    · norm_num
  have hc0 := roundFloat64_nonneg _ hfrac0
  have hc1 := roundFloat64_le_rel _ hfrac0
  have hhrq : (0 : ℚ) ≤ ((d / 3600000000000 : Int) : ℚ) := by exact_mod_cast hhr0
  have hH := roundFloat64_le_rel _ (add_nonneg hhrq hc0)
  have hsplit : (d : ℚ) / 3600000000000
      = ((d / 3600000000000 : Int) : ℚ) + ((d % 3600000000000 : Int) : ℚ) / 3600000000000 := by
    have := Int.ediv_add_emod d 3600000000000
    have hq : ((3600000000000 * (d / 3600000000000) + d % 3600000000000 : Int) : ℚ) = (d : ℚ) := by
      exact_mod_cast this
    push_cast at hq
    field_simp
    linarith
  have hu : (0 : ℚ) ≤ 1 / 2 ^ 53 := by positivity
  calc roundFloat64 (((d / 3600000000000 : Int) : ℚ)
          + roundFloat64 (((d % 3600000000000 : Int) : ℚ) / 3600000000000))
      ≤ (((d / 3600000000000 : Int) : ℚ)
          + roundFloat64 (((d % 3600000000000 : Int) : ℚ) / 3600000000000))
          * (1 + 1 / 2 ^ 53) := hH
    _ ≤ (((d / 3600000000000 : Int) : ℚ) * (1 + 1 / 2 ^ 53)
          + ((d % 3600000000000 : Int) : ℚ) / 3600000000000 * (1 + 1 / 2 ^ 53))
          * (1 + 1 / 2 ^ 53) := by
        apply mul_le_mul_of_nonneg_right _ (by positivity)
        have : ((d / 3600000000000 : Int) : ℚ)
            ≤ ((d / 3600000000000 : Int) : ℚ) * (1 + 1 / 2 ^ 53) := by
          nlinarith
        linarith
    _ = (d : ℚ) / 3600000000000 * (1 + 1 / 2 ^ 53) ^ 2 := by
        rw [hsplit]
        ring

/-- Away from the last millisecond before a whole number of days, the number
of days computed by `handleList` is exactly the whole days of the (saturated)
time until due, plus one. -/
theorem daysLeft_exact (due now : Int) (h : now ≤ due)
    (hmargin : timeSub due now % 86400000000000 + 1000000 ≤ 86400000000000) :
    daysLeft due now = timeSub due now / 86400000000000 + 1 := by
  obtain ⟨hb1, hb2⟩ := daysLeft_bounds due now h
  obtain ⟨h0, h1, -, -⟩ := timeSub_bounds due now h
  have hmax : maxDuration = 2 ^ 63 - 1 := rfl
  have hH0 := (Hours_bounds (timeSub due now) h0 h1).1
  have hH := Hours_le_rel (timeSub due now) h0 h1
  unfold daysLeft at hb1 hb2 ⊢
  generalize timeSub due now = d at *
  have hhr0 : 0 ≤ d / 3600000000000 := by omega
  have hHnn : (0 : ℚ) ≤ Hours d / 24 := by
    apply div_nonneg _ (by norm_num)
    have : (0 : ℚ) ≤ ((d / 3600000000000 : Int) : ℚ) := by exact_mod_cast hhr0
    linarith
  have hG := roundFloat64_le_rel _ hHnn
  have hd0 : (0 : ℚ) ≤ (d : ℚ) := by exact_mod_cast h0
  have hd1 : (d : ℚ) ≤ 2 ^ 63 := by
    have : d ≤ 2 ^ 63 := by omega
    exact_mod_cast this
  have hint : d + 1000000 ≤ 86400000000000 * (d / 86400000000000 + 1) := by omega
  have hq : (d : ℚ) + 1000000 ≤ 86400000000000 * (((d / 86400000000000 : Int) : ℚ) + 1) := by
    exact_mod_cast hint
  have hlt : roundFloat64 (Hours d / 24) < ((d / 86400000000000 + 1 : Int) : ℚ) := by
    have h3 : Hours d / 24 * (1 + 1 / 2 ^ 53)
        ≤ (d : ℚ) / 86400000000000 * (1 + 1 / 2 ^ 53) ^ 3 := by
      have : Hours d / 24 ≤ (d : ℚ) / 3600000000000 * (1 + 1 / 2 ^ 53) ^ 2 / 24 :=
        div_le_div_of_nonneg_right hH (by norm_num)
      calc Hours d / 24 * (1 + 1 / 2 ^ 53)
          ≤ (d : ℚ) / 3600000000000 * (1 + 1 / 2 ^ 53) ^ 2 / 24 * (1 + 1 / 2 ^ 53) :=
            mul_le_mul_of_nonneg_right this (by positivity)
        _ = (d : ℚ) / 86400000000000 * (1 + 1 / 2 ^ 53) ^ 3 := by ring
    have h4 : ((1 : ℚ) + 1 / 2 ^ 53) ^ 3 ≤ 1 + 4 / 2 ^ 53 := by norm_num
    have h5 : (d : ℚ) / 86400000000000 * (1 + 1 / 2 ^ 53) ^ 3
        ≤ (d : ℚ) / 86400000000000 * (1 + 4 / 2 ^ 53) :=
      mul_le_mul_of_nonneg_left h4 (by positivity)
    have h6 : (d : ℚ) / 86400000000000 * (1 + 4 / 2 ^ 53)
        < ((d / 86400000000000 : Int) : ℚ) + 1 := by
      rw [div_mul_eq_mul_div, div_lt_iff₀ (by norm_num)]
      have : (d : ℚ) * (1 + 4 / 2 ^ 53) ≤ (d : ℚ) + 4096 := by
        have : (d : ℚ) * (4 / 2 ^ 53) ≤ 2 ^ 63 * (4 / 2 ^ 53) :=
          mul_le_mul_of_nonneg_right hd1 (by positivity)
        norm_num at this ⊢
        linarith
      linarith
    push_cast
    linarith
  have hfloor : truncInt (roundFloat64 (Hours d / 24)) < d / 86400000000000 + 1 := by
    unfold truncInt
    rw [if_pos (roundFloat64_nonneg _ hHnn)]
    exact Int.floor_lt.mpr hlt
  omega

theorem roundHalfEven_eq_of_near (y : ℚ) (n : Int) (h1 : (n : ℚ) - 1 / 2 < y)
    (h2 : y < (n : ℚ) + 1 / 2) : roundHalfEven y = n := by
  rcases le_or_lt (n : ℚ) y with h | h
  · have hfl : ⌊y⌋ = n := Int.floor_eq_iff.mpr ⟨h, by linarith⟩
    unfold roundHalfEven
    rw [hfl, if_pos (by linarith)]
  · have hfl : ⌊y⌋ = n - 1 := Int.floor_eq_iff.mpr ⟨by push_cast; linarith, by push_cast; linarith⟩
    unfold roundHalfEven
    rw [hfl, if_neg (by push_cast; linarith), if_pos (by push_cast; linarith)]
    ring

/-- Evaluation of `roundFloat64` at a positive value that is not half-way
between two floats. -/
theorem roundFloat64_eq_of_near (x : ℚ) (e n : Int) (hx : 0 < x) (h1 : (2 : ℚ) ^ e ≤ x)
    (h2 : x < (2 : ℚ) ^ (e + 1)) (h3 : (n : ℚ) - 1 / 2 < x / 2 ^ (e - 52))
    (h4 : x / 2 ^ (e - 52) < (n : ℚ) + 1 / 2) : roundFloat64 x = n * 2 ^ (e - 52) := by
  have hlog : Int.log 2 x = e := by
    have a1 : e ≤ Int.log 2 x :=
      (Int.zpow_le_iff_le_log (b := 2) (by norm_num) hx).mp (by simpa using h1)
    have a2 : Int.log 2 x < e + 1 :=
      (Int.lt_zpow_iff_log_lt (b := 2) (by norm_num) hx).mp (by simpa using h2)
    omega
  unfold roundFloat64
  rw [if_neg (ne_of_gt hx), abs_of_pos hx, hlog, roundHalfEven_eq_of_near _ n h3 h4]

/-- The bound `w + 2` is reached: one nanosecond short of 1000 days, the hours
round up to `24000.0` and the number of days computed is 1001. -/
theorem daysLeft_rounds_up :
    daysLeft 64029139140000000000 63942739140000000001 = 1001
      ∧ timeSub 64029139140000000000 63942739140000000001 = 24000 * hour - 1
      ∧ timeSub 64029139140000000000 63942739140000000001 / (24 * hour) = 999 := by
  have hsub : timeSub 64029139140000000000 63942739140000000001 = 86399999999999999 := by
    decide
  refine ⟨?_, by decide, by decide⟩
  have hup := (daysLeft_bounds 64029139140000000000 63942739140000000001 (by decide)).2
  rw [hsub] at hup
  have hlow : 1001 ≤ daysLeft 64029139140000000000 63942739140000000001 := by
    unfold daysLeft
    rw [hsub]
    have hq : Int.tdiv 86399999999999999 hour = 23999 := by decide
    have hr : Int.tmod 86399999999999999 hour = 3599999999999 := by decide
    have hc : (1 : ℚ) - 1 / 2 ^ 40
        ≤ roundFloat64 (roundFloat64 ((3599999999999 : Int) : ℚ) / 3600000000000) := by
      rw [roundFloat64_intCast _ (by norm_num) (by norm_num)]
      have hfix := roundFloat64_dyadic (2 ^ 40 - 1) (-40) (by norm_num)
      have hm := roundFloat64_mono (((2 ^ 40 - 1 : Nat) : ℚ) * 2 ^ (-40 : Int))
        (((3599999999999 : Int) : ℚ) / 3600000000000) (by norm_num) (by norm_num)
      rw [hfix] at hm
      norm_num at hm ⊢
      exact hm
    have hH : (24000 : ℚ) ≤ Hours 86399999999999999 := by
      unfold Hours
      rw [hq, hr, roundFloat64_intCast 23999 (by norm_num) (by norm_num)]
      have hev : roundFloat64 ((23999 : ℚ) + (1 - 1 / 2 ^ 40)) = 24000 := by
        rw [roundFloat64_eq_of_near _ 14 (24000 * 2 ^ 38) (by norm_num) (by norm_num)
          (by norm_num) (by norm_num) (by norm_num)]
        norm_num
      have hm := roundFloat64_mono ((23999 : ℚ) + (1 - 1 / 2 ^ 40))
        (((23999 : Int) : ℚ)
          + roundFloat64 (roundFloat64 ((3599999999999 : Int) : ℚ) / 3600000000000))
        (by norm_num) (by push_cast; linarith)
      rw [hev] at hm
      exact hm
    have hG : (1000 : ℚ) ≤ roundFloat64 (Hours 86399999999999999 / 24) := by
      have hm := roundFloat64_mono (((1000 : Nat) : ℚ)) (Hours 86399999999999999 / 24)
        (by norm_num) (by rw [le_div_iff₀ (by norm_num)]; norm_num; linarith)
      rw [roundFloat64_natCast 1000 (by norm_num)] at hm
      exact_mod_cast hm
    have := (truncInt_bounds _ 1000 2000 (by linarith) (by exact_mod_cast hG) (by
      have h1 := (Hours_bounds 86399999999999999 (by norm_num) (by decide)).2
      have h2 : Hours 86399999999999999 / 24 ≤ ((2000 : Nat) : ℚ) := by
        rw [div_le_iff₀ (by norm_num)]
        norm_num at h1 ⊢
        linarith
      have hm := roundFloat64_mono _ _ (by
        apply div_nonneg _ (by norm_num)
        linarith) h2
      rw [roundFloat64_natCast 2000 (by norm_num)] at hm
      exact_mod_cast hm)).1
    omega
  have : (86399999999999999 : Int) / 86400000000000 + 2 = 1001 := by decide
  omega

theorem roundFloat64_le_add_half_quantum (x : ℚ) (hx : 0 < x) :
    roundFloat64 x ≤ x + 2 ^ (Int.log 2 x - 52) / 2 := by
  have hq : (0 : ℚ) < 2 ^ (Int.log 2 x - 52) := quantum_pos _
  have hr := roundHalfEven_le_add_half (x / 2 ^ (Int.log 2 x - 52))
  have h1 : (roundHalfEven (x / 2 ^ (Int.log 2 x - 52)) : ℚ) * 2 ^ (Int.log 2 x - 52)
      ≤ (x / 2 ^ (Int.log 2 x - 52) + 1 / 2) * 2 ^ (Int.log 2 x - 52) :=
    mul_le_mul_of_nonneg_right hr hq.le
  have h2 : (x / 2 ^ (Int.log 2 x - 52) + 1 / 2) * 2 ^ (Int.log 2 x - 52)
      = x + 2 ^ (Int.log 2 x - 52) / 2 := by
    rw [add_mul, div_mul_cancel₀ _ (ne_of_gt hq)]
    ring
  unfold roundFloat64
  rw [if_neg (ne_of_gt hx), abs_of_pos hx]
  linarith

/-- A rounded positive value is a whole multiple of the quantum of its own binade. -/
theorem roundFloat64_multiple (z : ℚ) (hz : 0 < z) :
    ∃ n : Int, roundFloat64 z = n * 2 ^ (Int.log 2 (roundFloat64 z) - 52) := by
  obtain ⟨hlo, hhi⟩ := roundFloat64_binade z hz
  have hpos : 0 < roundFloat64 z := lt_of_lt_of_le (quantum_pos _) hlo
  have hL1 : Int.log 2 z ≤ Int.log 2 (roundFloat64 z) :=
    (Int.zpow_le_iff_le_log (b := 2) (by norm_num) hpos).mp (by simpa using hlo)
  have hL2 : Int.log 2 (roundFloat64 z) < Int.log 2 z + 2 := by
    apply (Int.lt_zpow_iff_log_lt (b := 2) (by norm_num) hpos).mp
    have : (2 : ℚ) ^ (Int.log 2 z + 1) < 2 ^ (Int.log 2 z + 2) :=
      zpow_lt_zpow_right₀ (by norm_num) (by omega)
    simpa using lt_of_le_of_lt hhi this
  rcases (by omega : Int.log 2 (roundFloat64 z) = Int.log 2 z
      ∨ Int.log 2 (roundFloat64 z) = Int.log 2 z + 1) with h | h
  · refine ⟨roundHalfEven (z / 2 ^ (Int.log 2 z - 52)), ?_⟩
    rw [h]
    unfold roundFloat64
    rw [if_neg (ne_of_gt hz), abs_of_pos hz]
  · refine ⟨2 ^ 52, ?_⟩
    have hge : (2 : ℚ) ^ (Int.log 2 z + 1) ≤ roundFloat64 z := by
      have := Int.zpow_log_le_self (b := 2) (r := roundFloat64 z) (by norm_num) hpos
      rw [h] at this
      simpa using this
    have heq : roundFloat64 z = 2 ^ (Int.log 2 z + 1) := le_antisymm hhi hge
    rw [h]
    conv_lhs => rw [heq]
    have : Int.log 2 z + 1 = 52 + (Int.log 2 z + 1 - 52) := by ring
    conv_lhs => rw [this, zpow_add₀ (by norm_num : (2 : ℚ) ≠ 0)]
    norm_num

/-- Dividing a float64 `h` (a multiple of the quantum of its binade, below
`2^53`) by 24 and rounding does not reach the next integer: the truncation of
the rounded quotient is the floor of the exact quotient. -/
theorem truncInt_div24 (h : ℚ) (hpos : 0 < h) (hlt : h < 2 ^ 53)
    (hmul : ∃ n : Int, h = n * 2 ^ (Int.log 2 h - 52)) :
    truncInt (roundFloat64 (h / 24)) = ⌊h / 24⌋ := by
  have hx : 0 < h / 24 := by positivity
  have hfl0 : 0 ≤ ⌊h / 24⌋ := Int.floor_nonneg.mpr hx.le
  have hflx : ((⌊h / 24⌋ : Int) : ℚ) ≤ h / 24 := Int.floor_le _
  have hxk : h / 24 < ((⌊h / 24⌋ + 1 : Int) : ℚ) := by
    push_cast
    exact Int.lt_floor_add_one _
  have hflt : ⌊h / 24⌋ < 2 ^ 53 := by
    have : ((⌊h / 24⌋ : Int) : ℚ) < ((2 ^ 53 : Int) : ℚ) := by
      push_cast
      linarith
    exact_mod_cast this
  -- lower bound
  have hlow : ((⌊h / 24⌋ : Int) : ℚ) ≤ roundFloat64 (h / 24) := by
    have := roundFloat64_mono _ _ (by exact_mod_cast hfl0) hflx
    rwa [roundFloat64_intCast _ hfl0 hflt] at this
  -- the quanta
  have hLh : Int.log 2 h < 53 := by
    apply (Int.lt_zpow_iff_log_lt (b := 2) (by norm_num) hpos).mp
    have h53 : h < 9007199254740992 := by
      norm_num at hlt
      exact hlt
    norm_num
    exact h53
  have hLx : Int.log 2 (h / 24) < Int.log 2 h - 3 := by
    apply (Int.lt_zpow_iff_log_lt (b := 2) (by norm_num) hx).mp
    have h1 : h < (2 : ℚ) ^ (Int.log 2 h + 1) := by
      have := Int.lt_zpow_succ_log_self (b := 2) (by norm_num) h
      simpa using this
    have h2 : (2 : ℚ) ^ (Int.log 2 h + 1) = 16 * 2 ^ (Int.log 2 h - 3) := by
      have : Int.log 2 h + 1 = 4 + (Int.log 2 h - 3) := by ring
      conv_lhs => rw [this, zpow_add₀ (by norm_num : (2 : ℚ) ≠ 0)]
      norm_num
    have h3 : (0 : ℚ) < 2 ^ (Int.log 2 h - 3) := quantum_pos _
    rw [div_lt_iff₀ (by norm_num)]
    push_cast
    linarith
  have hQP : (2 : ℚ) ^ (Int.log 2 (h / 24) - 52) * 16 ≤ 2 ^ (Int.log 2 h - 52) := by
    have h1 : (2 : ℚ) ^ (Int.log 2 (h / 24) - 52) ≤ 2 ^ (Int.log 2 h - 4 - 52) :=
      zpow_le_zpow_right₀ (by norm_num) (by omega)
    have h2 : (2 : ℚ) ^ (Int.log 2 h - 52) = 16 * 2 ^ (Int.log 2 h - 4 - 52) := by
      have : Int.log 2 h - 52 = 4 + (Int.log 2 h - 4 - 52) := by ring
      conv_lhs => rw [this, zpow_add₀ (by norm_num : (2 : ℚ) ≠ 0)]
      norm_num
    linarith
  -- the gap between `h` and the next multiple of 24 is at least one quantum of `h`
  obtain ⟨n, hn⟩ := hmul
  obtain ⟨j, hj⟩ : ∃ j : Nat, 52 - Int.log 2 h = j := ⟨(52 - Int.log 2 h).toNat, by omega⟩
  have hP : (0 : ℚ) < 2 ^ (Int.log 2 h - 52) := quantum_pos _
  have hPj : (2 : ℚ) ^ (Int.log 2 h - 52) * 2 ^ j = 1 := by
    rw [← zpow_natCast, ← hj, ← zpow_add₀ (by norm_num : (2 : ℚ) ≠ 0)]
    have : Int.log 2 h - 52 + (52 - Int.log 2 h) = 0 := by ring
    rw [this, zpow_zero]
  have hgap : (2 : ℚ) ^ (Int.log 2 h - 52) ≤ 24 * ((⌊h / 24⌋ + 1 : Int) : ℚ) - h := by
    have hk : h < 24 * ((⌊h / 24⌋ + 1 : Int) : ℚ) := by
      rw [div_lt_iff₀ (by norm_num)] at hxk
      linarith
    have hint : (24 * ((⌊h / 24⌋ + 1 : Int) : ℚ) - h)
        = ((24 * (⌊h / 24⌋ + 1) * 2 ^ j - n : Int) : ℚ) * 2 ^ (Int.log 2 h - 52) := by
      push_cast
      rw [sub_mul, ← hn, mul_assoc, mul_comm ((2 : ℚ) ^ j), hPj]
      ring
    have hposM : (0 : ℚ) < ((24 * (⌊h / 24⌋ + 1) * 2 ^ j - n : Int) : ℚ) := by
      have : 0 < ((24 * (⌊h / 24⌋ + 1) * 2 ^ j - n : Int) : ℚ) * 2 ^ (Int.log 2 h - 52) := by
        rw [← hint]
        linarith
      exact (mul_pos_iff_of_pos_right hP).mp this
    have hM1 : (1 : ℚ) ≤ ((24 * (⌊h / 24⌋ + 1) * 2 ^ j - n : Int) : ℚ) := by
      have : (0 : Int) < 24 * (⌊h / 24⌋ + 1) * 2 ^ j - n := by exact_mod_cast hposM
      have : (1 : Int) ≤ 24 * (⌊h / 24⌋ + 1) * 2 ^ j - n := by omega
      exact_mod_cast this
    rw [hint]
    calc (2 : ℚ) ^ (Int.log 2 h - 52) = 1 * 2 ^ (Int.log 2 h - 52) := by ring
      _ ≤ _ := mul_le_mul_of_nonneg_right hM1 hP.le
  -- upper bound
  have hup : roundFloat64 (h / 24) < ((⌊h / 24⌋ + 1 : Int) : ℚ) := by
    have h1 := roundFloat64_le_add_half_quantum (h / 24) hx
    have hQ : (0 : ℚ) < 2 ^ (Int.log 2 (h / 24) - 52) := quantum_pos _
    linarith
  unfold truncInt
  rw [if_pos (le_trans (by exact_mod_cast hfl0) hlow)]
  have a1 : ⌊h / 24⌋ ≤ ⌊roundFloat64 (h / 24)⌋ := Int.le_floor.mpr hlow
  have a2 : ⌊roundFloat64 (h / 24)⌋ < ⌊h / 24⌋ + 1 := Int.floor_lt.mpr hup
  omega

/-- For a due date that is not before `now`, the number of days computed by
`handleList` is the floor of the float64 hours until due (of the saturated
duration) divided by 24, plus one. -/
theorem daysLeft_eq_floor (due now : Int) (h : now ≤ due) :
    daysLeft due now = ⌊Hours (timeSub due now) / 24⌋ + 1 := by
  obtain ⟨h0, h1, -, -⟩ := timeSub_bounds due now h
  have hmax : maxDuration = 2 ^ 63 - 1 := rfl
  obtain ⟨hH0, hH1⟩ := Hours_bounds (timeSub due now) h0 h1
  unfold daysLeft
  generalize timeSub due now = d at *
  have hhr0 : 0 ≤ d / 3600000000000 := by omega
  have hhr1 : d / 3600000000000 ≤ 2562047 := by omega
  have hhrq0 : (0 : ℚ) ≤ ((d / 3600000000000 : Int) : ℚ) := by exact_mod_cast hhr0
  have hhrq1 : ((d / 3600000000000 : Int) : ℚ) ≤ 2562047 := by exact_mod_cast hhr1
  have hHnn : (0 : ℚ) ≤ Hours d := le_trans hhrq0 hH0
  rcases eq_or_lt_of_le hHnn with hz | hpos
  · rw [← hz]
    simp [roundFloat64_zero, truncInt]
  · have hmul : ∃ n : Int, Hours d = n * 2 ^ (Int.log 2 (Hours d) - 52) := by
      have hzpos : 0 < roundFloat64 (Int.tdiv d hour)
          + roundFloat64 (roundFloat64 (Int.tmod d hour) / 3600000000000) := by
        by_contra hnot
        have hz0 : roundFloat64 (Int.tdiv d hour)
            + roundFloat64 (roundFloat64 (Int.tmod d hour) / 3600000000000) = 0 := by
          have hge : 0 ≤ roundFloat64 (Int.tdiv d hour)
              + roundFloat64 (roundFloat64 (Int.tmod d hour) / 3600000000000) := by
            rw [Int.tdiv_eq_ediv h0 (by decide), Int.tmod_eq_emod h0 (by decide), hour_eq]
            have hns0 : 0 ≤ d % 3600000000000 := by omega
            have a := roundFloat64_nonneg _ hhrq0
            have b := roundFloat64_nonneg _ (div_nonneg
              (roundFloat64_nonneg ((d % 3600000000000 : Int) : ℚ) (by exact_mod_cast hns0))
              (by norm_num : (0 : ℚ) ≤ 3600000000000))
            linarith
          exact le_antisymm (not_lt.mp hnot) hge
        have : Hours d = 0 := by
          unfold Hours
          rw [hz0, roundFloat64_zero]
        linarith
      exact roundFloat64_multiple _ hzpos
    rw [truncInt_div24 (Hours d) hpos (by norm_num; linarith) hmul]

/-! ## add: the id of the new task -/

/-- C1, as stated, fails: on the store with ids `5, 2` the new task gets id
`3` (one more than the id of the last task), while `max(existing ids) + 1` is
`6`. -/
theorem handleAdd_id_differs_from_max_plus_one :
    handleAdd goTime .ok (.stored [⟨5, "a", false, 0⟩, ⟨2, "b", false, 0⟩]) "c" ""
        = ⟨0, .added, .stored [⟨5, "a", false, 0⟩, ⟨2, "b", false, 0⟩, ⟨3, "c", false, 0⟩]⟩
      ∧ specNextId [⟨5, "a", false, 0⟩, ⟨2, "b", false, 0⟩] = 6 := by
  decide

/-- C1, amended. For every loaded store `ts`, every non-empty name and every
due text that is empty or parses, `add` succeeds and saves `ts` followed by
exactly one new task with the given name and `done = false`; its id is `1` when
the store is empty and otherwise the id of the last task plus one (in 64-bit
arithmetic). Whenever the last task holds the largest id (below the largest
`int`), this is `max(existing ids) + 1`. -/
theorem handleAdd_appends_after_last (lib : TimeLib) (f : FileState) (ts : List Task)
    (name due : String) (hf : readTasks f = (ts, none)) (hname : name ≠ "")
    (hdue : due = "" ∨ ∃ d, lib.parse due = .ok d) :
    ∃ t : Task,
      handleAdd lib .ok f name due = ⟨0, .added, .stored (ts ++ [t])⟩
      ∧ t.Name = name ∧ t.Done = false
      ∧ (ts = [] → t.ID = 1)
      ∧ (∀ l, ts.getLast? = some l → t.ID = wrapInt (l.ID + 1))
      ∧ (∀ l, ts.getLast? = some l → (∀ u ∈ ts, u.ID ≤ l.ID) → -2 ^ 63 ≤ l.ID →
          l.ID < 2 ^ 63 - 1 →
          maxId ts = some l.ID ∧ t.ID = l.ID + 1 ∧ t.ID = specNextId ts) := by
  obtain ⟨dueTime, -, -, heq⟩ := handleAdd_eq lib .ok f name due hname hdue
  have hts : (readTasks f).1 = ts := by rw [hf]
  rw [hts, saveAndReport_ok] at heq
  refine ⟨_, heq, rfl, rfl, ?_, ?_, ?_⟩
  · intro h
    subst h
    rfl
  · intro l hl
    simp only [hl]
  · intro l hl hmax h1 h2
    have hm := maxId_eq_last ts l hl hmax
    have hw : wrapInt (l.ID + 1) = l.ID + 1 := wrapInt_of_inRange _ (by omega) (by omega)
    refine ⟨hm, ?_, ?_⟩
    · simp only [hl, hw]
    · simp only [hl, hw, specNextId, hm]

/-- Instance: `add -name c -due 2030-01-01` on the store with ids `1, 2`. -/
theorem handleAdd_appends_after_last_witness :
    readTasks (.stored [⟨1, "a", false, 0⟩, ⟨2, "b", true, 0⟩])
        = ([⟨1, "a", false, 0⟩, ⟨2, "b", true, 0⟩], none)
      ∧ "c" ≠ ""
      ∧ ("2030-01-01" = "" ∨ ∃ d, goTime.parse "2030-01-01" = .ok d)
      ∧ ∃ t : Task,
        handleAdd goTime .ok (.stored [⟨1, "a", false, 0⟩, ⟨2, "b", true, 0⟩]) "c" "2030-01-01"
          = ⟨0, .added, .stored ([⟨1, "a", false, 0⟩, ⟨2, "b", true, 0⟩] ++ [t])⟩
        ∧ t.Name = "c" ∧ t.Done = false
        ∧ (([⟨1, "a", false, 0⟩, ⟨2, "b", true, 0⟩] : List Task) = [] → t.ID = 1)
        ∧ (∀ l, ([⟨1, "a", false, 0⟩, ⟨2, "b", true, 0⟩] : List Task).getLast? = some l →
            t.ID = wrapInt (l.ID + 1))
        ∧ (∀ l, ([⟨1, "a", false, 0⟩, ⟨2, "b", true, 0⟩] : List Task).getLast? = some l →
            (∀ u ∈ ([⟨1, "a", false, 0⟩, ⟨2, "b", true, 0⟩] : List Task), u.ID ≤ l.ID) →
            -2 ^ 63 ≤ l.ID → l.ID < 2 ^ 63 - 1 →
            maxId [⟨1, "a", false, 0⟩, ⟨2, "b", true, 0⟩] = some l.ID ∧ t.ID = l.ID + 1
              ∧ t.ID = specNextId [⟨1, "a", false, 0⟩, ⟨2, "b", true, 0⟩]) :=
  ⟨rfl, by decide, Or.inr ⟨_, rfl⟩,
    handleAdd_appends_after_last goTime _ _ "c" "2030-01-01" rfl (by decide) (Or.inr ⟨_, rfl⟩)⟩

/-! ## delete -/

/-- On a store whose ids are unique, `delete` with a non-zero id that occurs
saves the store without the task that has the id. -/
theorem handleDelete_removes_of_ne_zero (ts : List Task) (id : Int) (hid : id ≠ 0)
    (hnodup : (ts.map Task.ID).Nodup) (hocc : ∃ t ∈ ts, t.ID = id) :
    ∃ pre t post, ts = pre ++ t :: post ∧ t.ID = id
      ∧ handleDelete .ok (.stored ts) id = ⟨0, .deleted, .stored (pre ++ post)⟩
      ∧ (∀ u ∈ pre ++ post, u.ID ≠ id)
      ∧ (pre ++ post).length + 1 = ts.length := by
  obtain ⟨pre, t, post, hsplit, hpre, ht⟩ := exists_first_with_id id ts hocc
  have hpost : ∀ u ∈ post, u.ID ≠ id := by
    intro u hu hu2
    rw [hsplit] at hnodup
    simp only [List.map_append, List.map_cons] at hnodup
    have h2 := (List.nodup_append.mp hnodup).2.1
    have h3 := (List.nodup_cons.mp h2).1
    apply h3
    rw [ht, ← hu2]
    exact List.mem_map_of_mem _ hu
  have hall : ∀ u ∈ pre ++ post, u.ID ≠ id := by
    intro u hu
    rcases List.mem_append.mp hu with h | h
    · exact hpre u h
    · exact hpost u h
  have hfilter : ts.filter (fun t => decide (t.ID ≠ id)) = pre ++ post := by
    have h1 : pre.filter (fun t => decide (t.ID ≠ id)) = pre :=
      List.filter_eq_self.mpr (fun u hu => by simpa using hpre u hu)
    have h2 : post.filter (fun t => decide (t.ID ≠ id)) = post :=
      List.filter_eq_self.mpr (fun u hu => by simpa using hpost u hu)
    rw [hsplit, List.filter_append, List.filter_cons, h1, h2]
    simp [ht]
  have hany : ts.any (fun t => decide (t.ID = id)) = true := by
    rw [hsplit]
    simp [ht]
  refine ⟨pre, t, post, hsplit, ht, ?_, hall, ?_⟩
  · simp only [handleDelete, if_neg hid, readTasks, deleteLoop_eq, hany, hfilter,
      saveAndReport_ok]
    simp
  · rw [hsplit]
    simp
    omega

/-- C5. For every store (a sequence of tasks whose ids are positive integers,
as in the data model) whose ids are unique and every id that occurs in it,
`delete` succeeds and saves the original sequence with exactly that one task
removed: the saved store is `pre ++ post` where the loaded one is
`pre ++ t :: post` and `t` has the id; it contains no task with the id, has
one task fewer, and every other task is kept, unchanged and in the original
order. -/
theorem handleDelete_removes_exactly_one (ts : List Task) (id : Int)
    (hpos : ∀ t ∈ ts, 0 < t.ID) (hnodup : (ts.map Task.ID).Nodup)
    (hocc : ∃ t ∈ ts, t.ID = id) :
    ∃ pre t post, ts = pre ++ t :: post ∧ t.ID = id
      ∧ handleDelete .ok (.stored ts) id = ⟨0, .deleted, .stored (pre ++ post)⟩
      ∧ (∀ u ∈ pre ++ post, u.ID ≠ id)
      ∧ (pre ++ post).length + 1 = ts.length := by
  have hid : id ≠ 0 := by
    obtain ⟨t, ht, h⟩ := hocc
    have := hpos t ht
    omega
  exact handleDelete_removes_of_ne_zero ts id hid hnodup hocc

/-- Instance: `delete -id 2` on the store with ids `1, 2, 5`. -/
theorem handleDelete_removes_exactly_one_witness :
    (∀ t ∈ ([⟨1, "a", false, 0⟩, ⟨2, "b", true, 0⟩, ⟨5, "c", false, 0⟩] : List Task),
        0 < t.ID)
      ∧ (([⟨1, "a", false, 0⟩, ⟨2, "b", true, 0⟩, ⟨5, "c", false, 0⟩] : List Task).map
          Task.ID).Nodup
      ∧ (∃ t ∈ ([⟨1, "a", false, 0⟩, ⟨2, "b", true, 0⟩, ⟨5, "c", false, 0⟩] : List Task),
          t.ID = 2)
      ∧ ∃ pre t post,
        ([⟨1, "a", false, 0⟩, ⟨2, "b", true, 0⟩, ⟨5, "c", false, 0⟩] : List Task)
            = pre ++ t :: post
          ∧ t.ID = 2
          ∧ handleDelete .ok
              (.stored [⟨1, "a", false, 0⟩, ⟨2, "b", true, 0⟩, ⟨5, "c", false, 0⟩]) 2
            = ⟨0, .deleted, .stored (pre ++ post)⟩
          ∧ (∀ u ∈ pre ++ post, u.ID ≠ 2)
          ∧ (pre ++ post).length + 1
            = ([⟨1, "a", false, 0⟩, ⟨2, "b", true, 0⟩, ⟨5, "c", false, 0⟩] : List Task).length :=
  ⟨by decide, by decide, ⟨⟨2, "b", true, 0⟩, by decide, rfl⟩,
    handleDelete_removes_exactly_one _ 2 (by decide) (by decide)
      ⟨⟨2, "b", true, 0⟩, by decide, rfl⟩⟩

/-! ## done -/

/-- With a non-zero id that occurs in the store, `done` sets the flag of the
first task with the id, and a second `done` leaves the same store. -/
theorem handleDone_idempotent_of_ne_zero (ts : List Task) (id : Int) (hid : id ≠ 0)
    (hocc : ∃ t ∈ ts, t.ID = id) :
    ∃ pre t post, ts = pre ++ t :: post ∧ (∀ u ∈ pre, u.ID ≠ id) ∧ t.ID = id
      ∧ handleDone .ok (.stored ts) id
        = ⟨0, .markedDone, .stored (pre ++ { t with Done := true } :: post)⟩
      ∧ handleDone .ok (handleDone .ok (.stored ts) id).file id
        = handleDone .ok (.stored ts) id := by
  obtain ⟨pre, t, post, hsplit, hpre, ht⟩ := exists_first_with_id id ts hocc
  have h1 : handleDone .ok (.stored ts) id
      = ⟨0, .markedDone, .stored (pre ++ { t with Done := true } :: post)⟩ := by
    simp only [handleDone, if_neg hid, readTasks, hsplit, doneLoop_at id pre t post hpre ht,
      saveAndReport_ok]
    simp
  refine ⟨pre, t, post, hsplit, hpre, ht, h1, ?_⟩
  rw [h1]
  have ht2 : ({ t with Done := true } : Task).ID = id := ht
  simp only [handleDone, if_neg hid, readTasks,
    doneLoop_at id pre { t with Done := true } post hpre ht2, saveAndReport_ok]
  simp

/-- C6. `done` is idempotent: for every store (a sequence of tasks whose ids
are positive integers, as in the data model) and every id that occurs in it,
`done` succeeds and saves the store in which the first task with the id has
`done = true` and everything else (its id, name and due date, all other tasks,
their order and number) is as loaded; applying `done` with the same id to the
result succeeds again and leaves exactly the same store. -/
theorem handleDone_idempotent (ts : List Task) (id : Int) (hpos : ∀ t ∈ ts, 0 < t.ID)
    (hocc : ∃ t ∈ ts, t.ID = id) :
    ∃ pre t post, ts = pre ++ t :: post ∧ (∀ u ∈ pre, u.ID ≠ id) ∧ t.ID = id
      ∧ handleDone .ok (.stored ts) id
        = ⟨0, .markedDone, .stored (pre ++ { t with Done := true } :: post)⟩
      ∧ handleDone .ok (handleDone .ok (.stored ts) id).file id
        = handleDone .ok (.stored ts) id := by
  have hid : id ≠ 0 := by
    obtain ⟨t, ht, h⟩ := hocc
    have := hpos t ht
    omega
  exact handleDone_idempotent_of_ne_zero ts id hid hocc

/-- Instance: `done -id 2` on a store in which two tasks have the id `2`. -/
theorem handleDone_idempotent_witness :
    (∀ t ∈ ([⟨1, "a", false, 0⟩, ⟨2, "b", false, 5⟩, ⟨2, "c", false, 0⟩] : List Task),
        0 < t.ID)
      ∧ (∃ t ∈ ([⟨1, "a", false, 0⟩, ⟨2, "b", false, 5⟩, ⟨2, "c", false, 0⟩] : List Task),
          t.ID = 2)
      ∧ ∃ pre t post,
        ([⟨1, "a", false, 0⟩, ⟨2, "b", false, 5⟩, ⟨2, "c", false, 0⟩] : List Task)
            = pre ++ t :: post
          ∧ (∀ u ∈ pre, u.ID ≠ 2) ∧ t.ID = 2
          ∧ handleDone .ok
              (.stored [⟨1, "a", false, 0⟩, ⟨2, "b", false, 5⟩, ⟨2, "c", false, 0⟩]) 2
            = ⟨0, .markedDone, .stored (pre ++ { t with Done := true } :: post)⟩
          ∧ handleDone .ok
              (handleDone .ok
                (.stored [⟨1, "a", false, 0⟩, ⟨2, "b", false, 5⟩, ⟨2, "c", false, 0⟩]) 2).file 2
            = handleDone .ok
                (.stored [⟨1, "a", false, 0⟩, ⟨2, "b", false, 5⟩, ⟨2, "c", false, 0⟩]) 2 :=
  ⟨by decide, ⟨⟨2, "b", false, 5⟩, by decide, rfl⟩,
    handleDone_idempotent _ 2 (by decide) ⟨⟨2, "b", false, 5⟩, by decide, rfl⟩⟩

/-! ## modify -/

/-- C7. For every store and every id that occurs in it, with a due text that
is empty or parses, the store after `modify` is the loaded one with the first
task `t` that has the id replaced by a task `t'` with the same id and the same
`done` flag; all other tasks are unchanged. If the due text is empty `t'` has
the due date of `t`; if the name is empty `t'` has the name of `t`; if both are
empty the store after is equal to the loaded one. For a non-zero id the
invocation succeeds, saves that store, and the supplied fields are the new
values. -/
theorem handleModify_changes_only_supplied (lib : TimeLib) (ts : List Task) (id : Int)
    (name due : String) (hocc : ∃ t ∈ ts, t.ID = id)
    (hdue : due = "" ∨ ∃ d, lib.parse due = .ok d) :
    ∃ pre t post t', ts = pre ++ t :: post ∧ (∀ u ∈ pre, u.ID ≠ id) ∧ t.ID = id
      ∧ (handleModify lib .ok (.stored ts) id name due).file = .stored (pre ++ t' :: post)
      ∧ t'.ID = t.ID ∧ t'.Done = t.Done
      ∧ (due = "" → t'.Due = t.Due)
      ∧ (name = "" → t'.Name = t.Name)
      ∧ (name = "" → due = "" →
          (handleModify lib .ok (.stored ts) id name due).file = .stored ts)
      ∧ (id ≠ 0 →
          handleModify lib .ok (.stored ts) id name due
            = ⟨0, .modified, .stored (pre ++ t' :: post)⟩
          ∧ (name ≠ "" → t'.Name = name)
          ∧ (∀ d, due ≠ "" → lib.parse due = .ok d → t'.Due = d + 23 * hour)) := by
  obtain ⟨pre, t, post, hsplit, hpre, ht⟩ := exists_first_with_id id ts hocc
  by_cases hid : id = 0
  · have h0 : handleModify lib .ok (.stored ts) id name due = ⟨1, .missingId, .stored ts⟩ := by
      simp [handleModify, hid]
    refine ⟨pre, t, post, t, hsplit, hpre, ht, ?_, rfl, rfl, fun _ => rfl, fun _ => rfl, ?_, ?_⟩
    · rw [h0, hsplit]
    · intro _ _
      rw [h0]
    · intro h
      exact absurd hid h
  · obtain ⟨t', hmod, h1, h2, h3, h4, h5, h6, h7⟩ := modifyTask_ok lib name due t hdue
    have hrun : handleModify lib .ok (.stored ts) id name due
        = ⟨0, .modified, .stored (pre ++ t' :: post)⟩ := by
      rw [handleModify_of_present lib .ok (.stored ts) pre t post id name due
        (by rw [hsplit]; rfl) hid hpre ht, hmod]
      rfl
    refine ⟨pre, t, post, t', hsplit, hpre, ht, by rw [hrun], h1, h2, h3, h4, ?_, ?_⟩
    · intro hn hd
      rw [hrun, h7 hn hd, hsplit]
    · intro _
      exact ⟨hrun, h5, h6⟩

/-- Instance: `modify -id 2 -due 2030-01-01` on the store with ids `1, 2`. -/
theorem handleModify_changes_only_supplied_witness :
    (∃ t ∈ ([⟨1, "a", false, 0⟩, ⟨2, "b", true, 7⟩] : List Task), t.ID = 2)
      ∧ ("2030-01-01" = "" ∨ ∃ d, goTime.parse "2030-01-01" = .ok d)
      ∧ ∃ pre t post t',
        ([⟨1, "a", false, 0⟩, ⟨2, "b", true, 7⟩] : List Task) = pre ++ t :: post
          ∧ (∀ u ∈ pre, u.ID ≠ 2) ∧ t.ID = 2
          ∧ (handleModify goTime .ok (.stored [⟨1, "a", false, 0⟩, ⟨2, "b", true, 7⟩]) 2 ""
                "2030-01-01").file = .stored (pre ++ t' :: post)
          ∧ t'.ID = t.ID ∧ t'.Done = t.Done
          ∧ ("2030-01-01" = "" → t'.Due = t.Due)
          ∧ ("" = "" → t'.Name = t.Name)
          ∧ ("" = "" → "2030-01-01" = "" →
              (handleModify goTime .ok (.stored [⟨1, "a", false, 0⟩, ⟨2, "b", true, 7⟩]) 2 ""
                "2030-01-01").file = .stored [⟨1, "a", false, 0⟩, ⟨2, "b", true, 7⟩])
          ∧ ((2 : Int) ≠ 0 →
              handleModify goTime .ok (.stored [⟨1, "a", false, 0⟩, ⟨2, "b", true, 7⟩]) 2 ""
                  "2030-01-01"
                = ⟨0, .modified, .stored (pre ++ t' :: post)⟩
              ∧ ("" ≠ "" → t'.Name = "")
              ∧ (∀ d, "2030-01-01" ≠ "" → goTime.parse "2030-01-01" = .ok d →
                  t'.Due = d + 23 * hour)) :=
  ⟨⟨⟨2, "b", true, 7⟩, by decide, rfl⟩, Or.inr ⟨_, rfl⟩,
    handleModify_changes_only_supplied goTime _ 2 "" "2030-01-01"
      ⟨⟨2, "b", true, 7⟩, by decide, rfl⟩ (Or.inr ⟨_, rfl⟩)⟩

/-! ## not found -/

/-- C8. For every loaded store and every non-zero id, each of `done`, `delete`
and `modify` prints the not-found error exactly when no task of the store has
the id; in that case the invocation exits with status 1 and the file is left
as it was. In particular `done -id 1` on the empty store fails with not-found. -/
theorem notFound_iff_id_absent (lib : TimeLib) (m : SaveMode) (f : FileState) (ts : List Task)
    (id : Int) (name due : String) (hf : readTasks f = (ts, none)) (hid : id ≠ 0) :
    ((handleDone m f id).msg = .notFound id ↔ ∀ t ∈ ts, t.ID ≠ id)
      ∧ ((handleDelete m f id).msg = .notFound id ↔ ∀ t ∈ ts, t.ID ≠ id)
      ∧ ((handleModify lib m f id name due).msg = .notFound id ↔ ∀ t ∈ ts, t.ID ≠ id)
      ∧ ((∀ t ∈ ts, t.ID ≠ id) →
          handleDone m f id = ⟨1, .notFound id, f⟩
          ∧ handleDelete m f id = ⟨1, .notFound id, f⟩
          ∧ handleModify lib m f id name due = ⟨1, .notFound id, f⟩)
      ∧ handleDone m .absent 1 = ⟨1, .notFound 1, .absent⟩ := by
  have hall : (∀ t ∈ ts, t.ID ≠ id) →
      handleDone m f id = ⟨1, .notFound id, f⟩
      ∧ handleDelete m f id = ⟨1, .notFound id, f⟩
      ∧ handleModify lib m f id name due = ⟨1, .notFound id, f⟩ := fun habs =>
    ⟨handleDone_of_absent m f ts id hf hid habs, handleDelete_of_absent m f ts id hf hid habs,
      handleModify_of_absent lib m f ts id name due hf hid habs⟩
  have hocc_of : ¬ (∀ t ∈ ts, t.ID ≠ id) → ∃ t ∈ ts, t.ID = id := by
    intro h
    by_contra h2
    exact h (fun t ht heq => h2 ⟨t, ht, heq⟩)
  refine ⟨⟨?_, fun habs => by rw [(hall habs).1]⟩, ⟨?_, fun habs => by rw [(hall habs).2.1]⟩,
    ⟨?_, fun habs => by rw [(hall habs).2.2]⟩, hall, ?_⟩
  · intro hmsg
    by_contra habs
    obtain ⟨pre, t, post, hsplit, hpre, ht⟩ := exists_first_with_id id ts (hocc_of habs)
    rw [handleDone_of_present m f pre t post id (by rw [hf, hsplit]) hid hpre ht] at hmsg
    rcases saveAndReport_msg m f (pre ++ { t with Done := true } :: post) .markedDone with h | ⟨e, h⟩
    · rw [h] at hmsg
      cases hmsg
    · rw [h] at hmsg
      cases hmsg
  · intro hmsg
    by_contra habs
    rw [handleDelete_of_present m f ts id hf hid (hocc_of habs)] at hmsg
    rcases saveAndReport_msg m f (ts.filter (fun t => decide (t.ID ≠ id))) .deleted with h | ⟨e, h⟩
    · rw [h] at hmsg
      cases hmsg
    · rw [h] at hmsg
      cases hmsg
  · intro hmsg
    by_contra habs
    obtain ⟨pre, t, post, hsplit, hpre, ht⟩ := exists_first_with_id id ts (hocc_of habs)
    rw [handleModify_of_present lib m f pre t post id name due (by rw [hf, hsplit]) hid hpre ht]
      at hmsg
    cases hmod : modifyTask lib name due t with
    | error e =>
      rw [hmod] at hmsg
      cases hmsg
    | ok t' =>
      rw [hmod] at hmsg
      rcases saveAndReport_msg m f (pre ++ t' :: post) .modified with h | ⟨e, h⟩
      · simp only [h] at hmsg
        cases hmsg
      · simp only [h] at hmsg
        cases hmsg
  · exact handleDone_of_absent m .absent [] 1 rfl (by decide) (by simp)

/-- Instance: the id `3` on the store with ids `1, 2`. -/
theorem notFound_iff_id_absent_witness :
    readTasks (.stored [⟨1, "a", false, 0⟩, ⟨2, "b", true, 7⟩])
        = ([⟨1, "a", false, 0⟩, ⟨2, "b", true, 7⟩], none)
      ∧ (3 : Int) ≠ 0
      ∧ (((handleDone .ok (.stored [⟨1, "a", false, 0⟩, ⟨2, "b", true, 7⟩]) 3).msg = .notFound 3
            ↔ ∀ t ∈ ([⟨1, "a", false, 0⟩, ⟨2, "b", true, 7⟩] : List Task), t.ID ≠ 3)
        ∧ ((handleDelete .ok (.stored [⟨1, "a", false, 0⟩, ⟨2, "b", true, 7⟩]) 3).msg
              = .notFound 3
            ↔ ∀ t ∈ ([⟨1, "a", false, 0⟩, ⟨2, "b", true, 7⟩] : List Task), t.ID ≠ 3)
        ∧ ((handleModify goTime .ok (.stored [⟨1, "a", false, 0⟩, ⟨2, "b", true, 7⟩]) 3 "x"
              "").msg = .notFound 3
            ↔ ∀ t ∈ ([⟨1, "a", false, 0⟩, ⟨2, "b", true, 7⟩] : List Task), t.ID ≠ 3)
        ∧ ((∀ t ∈ ([⟨1, "a", false, 0⟩, ⟨2, "b", true, 7⟩] : List Task), t.ID ≠ 3) →
            handleDone .ok (.stored [⟨1, "a", false, 0⟩, ⟨2, "b", true, 7⟩]) 3
              = ⟨1, .notFound 3, .stored [⟨1, "a", false, 0⟩, ⟨2, "b", true, 7⟩]⟩
            ∧ handleDelete .ok (.stored [⟨1, "a", false, 0⟩, ⟨2, "b", true, 7⟩]) 3
              = ⟨1, .notFound 3, .stored [⟨1, "a", false, 0⟩, ⟨2, "b", true, 7⟩]⟩
            ∧ handleModify goTime .ok (.stored [⟨1, "a", false, 0⟩, ⟨2, "b", true, 7⟩]) 3 "x" ""
              = ⟨1, .notFound 3, .stored [⟨1, "a", false, 0⟩, ⟨2, "b", true, 7⟩]⟩)
        ∧ handleDone .ok .absent 1 = ⟨1, .notFound 1, .absent⟩) :=
  ⟨rfl, by decide, notFound_iff_id_absent goTime .ok _ _ 3 "x" "" rfl (by decide)⟩

/-! ## Sequences of invocations: the ids of the store -/

/-- C3. In every store reached from the empty store (no file) by a sequence
of successful `add`, `list`, `done`, `delete` and `modify` invocations, the
file loads without error, no two tasks have the same id and every id is
positive. (The sequence contains fewer than `2^63` invocations of `add`, the
number after which the 64-bit id counter would wrap.) -/
theorem reachable_ids_unique_positive (lib : TimeLib) (ops : List (SaveMode × Cmd))
    (f : FileState) (hadds : countAdds ops < 2 ^ 63) (hrun : runAll lib ops .absent = some f) :
    (readTasks f).2 = none ∧ ((readTasks f).1.map Task.ID).Nodup
      ∧ ∀ t ∈ (readTasks f).1, 0 < t.ID := by
  have hgood := runAll_good lib ops .absent f 0 goodFile_absent (by omega) hrun
  refine ⟨hgood.1, nodup_of_ascending _ _ hgood.2, fun t ht => ?_⟩
  have := (hgood.2.2 t ht).1
  omega

/-- Instance: three `add`, one `done`, one `delete` and one `modify` from the empty store. -/
theorem reachable_ids_unique_positive_witness :
    countAdds [(.ok, .add "a" ""), (.ok, .add "b" "2030-01-01"), (.ok, .done 1),
        (.ok, .delete 1), (.ok, .add "c" ""), (.ok, .modify 3 "d" "")] < 2 ^ 63
      ∧ runAll goTime [(.ok, .add "a" ""), (.ok, .add "b" "2030-01-01"), (.ok, .done 1),
          (.ok, .delete 1), (.ok, .add "c" ""), (.ok, .modify 3 "d" "")] .absent
        = some (.stored [⟨2, "b", false, 64029139140000000000⟩, ⟨3, "d", false, 0⟩])
      ∧ ((readTasks (.stored [⟨2, "b", false, 64029139140000000000⟩, ⟨3, "d", false, 0⟩])).2
          = none
        ∧ ((readTasks (.stored [⟨2, "b", false, 64029139140000000000⟩,
            ⟨3, "d", false, 0⟩])).1.map Task.ID).Nodup
        ∧ ∀ t ∈ (readTasks (.stored [⟨2, "b", false, 64029139140000000000⟩,
            ⟨3, "d", false, 0⟩])).1, 0 < t.ID) :=
  ⟨by decide, by decide,
    reachable_ids_unique_positive goTime
      [(.ok, .add "a" ""), (.ok, .add "b" "2030-01-01"), (.ok, .done 1), (.ok, .delete 1),
        (.ok, .add "c" ""), (.ok, .modify 3 "d" "")]
      (.stored [⟨2, "b", false, 64029139140000000000⟩, ⟨3, "d", false, 0⟩])
      (by decide) (by decide)⟩

/-- C2, as stated, fails: `add a`, `add b`, `delete -id 2`, `add c` assigns
the id `2` to `b`, removes it, and assigns the id `2` again to `c`. -/
theorem deleted_id_is_reused :
    idEvents goTime [(.ok, .add "a" ""), (.ok, .add "b" ""), (.ok, .delete 2),
        (.ok, .add "c" "")] .absent
        = [.assigned 1, .assigned 2, .removed 2, .assigned 2]
      ∧ ¬ NeverReused (idEvents goTime [(.ok, .add "a" ""), (.ok, .add "b" ""),
          (.ok, .delete 2), (.ok, .add "c" "")] .absent) := by
  have hev : idEvents goTime [(.ok, .add "a" ""), (.ok, .add "b" ""), (.ok, .delete 2),
      (.ok, .add "c" "")] .absent = [.assigned 1, .assigned 2, .removed 2, .assigned 2] := by
    decide
  refine ⟨hev, ?_⟩
  rw [hev]
  intro h
  exact h 1 2 3 2 (by decide) (by decide) rfl rfl rfl

/-- C2, amended. After any sequence of successful invocations from the empty
store, a successful `add` appends a task whose id is strictly greater than the
id of every task then in the store; so the id `d` of a deleted task is not
assigned again as long as a task with an id of at least `d` is stored. (An id
can be assigned again once every task with that id or a larger one has been
deleted; the sequence contains fewer than `2^63` invocations of `add`.) -/
theorem add_assigns_id_above_stored (lib : TimeLib) (ops : List (SaveMode × Cmd))
    (f : FileState) (m : SaveMode) (name due : String) (hadds : countAdds ops + 1 < 2 ^ 63)
    (hrun : runAll lib ops .absent = some f) (hadd : (handleAdd lib m f name due).exit = 0) :
    ∃ t : Task,
      handleAdd lib m f name due = ⟨0, .added, .stored ((readTasks f).1 ++ [t])⟩
      ∧ (∀ u ∈ (readTasks f).1, u.ID < t.ID)
      ∧ ∀ d : Int, (∃ u ∈ (readTasks f).1, d ≤ u.ID) → t.ID ≠ d := by
  have hgood := runAll_good lib ops .absent f 0 goodFile_absent (by omega) hrun
  obtain ⟨t, heq, habove, -, -, -, -⟩ :=
    handleAdd_ascending lib m f name due (0 + countAdds ops) (by omega) hgood.2 hadd
  refine ⟨t, heq, habove, ?_⟩
  rintro d ⟨u, hu, hdu⟩ hd
  have := habove u hu
  omega

/-- Instance: after `add`, `add`, `add`, `delete -id 2` the next `add` assigns
an id above `1` and `3`. -/
theorem add_assigns_id_above_stored_witness :
    countAdds [(.ok, .add "a" ""), (.ok, .add "b" ""), (.ok, .add "c" ""), (.ok, .delete 2)]
        + 1 < 2 ^ 63
      ∧ runAll goTime [(.ok, .add "a" ""), (.ok, .add "b" ""), (.ok, .add "c" ""),
          (.ok, .delete 2)] .absent
        = some (.stored [⟨1, "a", false, 0⟩, ⟨3, "c", false, 0⟩])
      ∧ (handleAdd goTime .ok (.stored [⟨1, "a", false, 0⟩, ⟨3, "c", false, 0⟩]) "d" "").exit = 0
      ∧ ∃ t : Task,
        handleAdd goTime .ok (.stored [⟨1, "a", false, 0⟩, ⟨3, "c", false, 0⟩]) "d" ""
          = ⟨0, .added,
              .stored ((readTasks (.stored [⟨1, "a", false, 0⟩, ⟨3, "c", false, 0⟩])).1 ++ [t])⟩
        ∧ (∀ u ∈ (readTasks (.stored [⟨1, "a", false, 0⟩, ⟨3, "c", false, 0⟩])).1, u.ID < t.ID)
        ∧ ∀ d : Int,
          (∃ u ∈ (readTasks (.stored [⟨1, "a", false, 0⟩, ⟨3, "c", false, 0⟩])).1, d ≤ u.ID) →
            t.ID ≠ d :=
  ⟨by decide, by decide, by decide,
    add_assigns_id_above_stored goTime
      [(.ok, .add "a" ""), (.ok, .add "b" ""), (.ok, .add "c" ""), (.ok, .delete 2)]
      (.stored [⟨1, "a", false, 0⟩, ⟨3, "c", false, 0⟩]) .ok "d" ""
      (by decide) (by decide) (by decide)⟩

/-- C10. For every `n ≥ 1` (that a Go slice can hold, `n < 2^63`) and every
sequence of `n` successful `add` invocations from the empty store, the
resulting store has `n` tasks whose ids, in append order, are `1, 2, ..., n`:
strictly increasing, each one more than the largest before it. -/
theorem adds_from_empty_ids (lib : TimeLib) (n : Nat) (ops : List (SaveMode × Cmd))
    (f : FileState) (hn1 : 1 ≤ n) (hn : n < 2 ^ 63) (hlen : ops.length = n)
    (hadds : ∀ op ∈ ops, ∃ name due, op.2 = .add name due)
    (hrun : runAll lib ops .absent = some f) :
    ∃ ts, f = .stored ts ∧ ts.length = n ∧ ts.map Task.ID = idsUpTo n
      ∧ (ts.map Task.ID).Pairwise (· < ·) := by
  have hres := runAll_adds lib ops .absent f 0 rfl rfl (by omega) hadds hrun
  rw [Nat.zero_add, hlen] at hres
  have hne : ops ≠ [] := by
    intro h
    rw [h] at hlen
    simp at hlen
    omega
  refine ⟨(readTasks f).1, hres.2.2 hne, ?_, hres.2.1, (ascending_of_idsUpTo n _ hres.2.1).1⟩
  have := congrArg List.length hres.2.1
  rw [List.length_map, length_idsUpTo] at this
  exact this

/-- Instance: three `add` invocations from the empty store. -/
theorem adds_from_empty_ids_witness :
    1 ≤ 3 ∧ 3 < 2 ^ 63
      ∧ ([(.ok, .add "a" ""), (.ok, .add "b" "2030-01-01"), (.ok, .add "c" "")] :
          List (SaveMode × Cmd)).length = 3
      ∧ (∀ op ∈ ([(.ok, .add "a" ""), (.ok, .add "b" "2030-01-01"), (.ok, .add "c" "")] :
          List (SaveMode × Cmd)), ∃ name due, op.2 = .add name due)
      ∧ runAll goTime [(.ok, .add "a" ""), (.ok, .add "b" "2030-01-01"), (.ok, .add "c" "")]
          .absent
        = some (.stored [⟨1, "a", false, 0⟩, ⟨2, "b", false, 64029139140000000000⟩,
            ⟨3, "c", false, 0⟩])
      ∧ ∃ ts, FileState.stored [⟨1, "a", false, 0⟩, ⟨2, "b", false, 64029139140000000000⟩,
            ⟨3, "c", false, 0⟩] = .stored ts
          ∧ ts.length = 3 ∧ ts.map Task.ID = idsUpTo 3
          ∧ (ts.map Task.ID).Pairwise (· < ·) :=
  ⟨by decide, by decide, rfl, by simp, by decide,
    adds_from_empty_ids goTime 3
      [(.ok, .add "a" ""), (.ok, .add "b" "2030-01-01"), (.ok, .add "c" "")]
      (.stored [⟨1, "a", false, 0⟩, ⟨2, "b", false, 64029139140000000000⟩, ⟨3, "c", false, 0⟩])
      (by decide) (by decide) rfl (by simp) (by decide)⟩

/-! ## Load failures -/

/-- The four handlers that check the error of `readTasks` stop on a load
failure: exit status 1 and the file is left as it was (for `list`, and for a
non-zero id, the message is the read failure). -/
theorem load_failure_stops (lib : TimeLib) (m : SaveMode) (f : FileState) (e : String)
    (now id : Int) (name due : String) (hf : (readTasks f).2 = some e) :
    handleList lib f now = ⟨1, .readFailed e, f⟩
      ∧ (handleDone m f id).exit = 1 ∧ (handleDone m f id).file = f
      ∧ (handleDelete m f id).exit = 1 ∧ (handleDelete m f id).file = f
      ∧ (handleModify lib m f id name due).exit = 1 ∧ (handleModify lib m f id name due).file = f
      ∧ (id ≠ 0 → (handleDone m f id).msg = .readFailed e
          ∧ (handleDelete m f id).msg = .readFailed e
          ∧ (handleModify lib m f id name due).msg = .readFailed e) := by
  cases f with
  | absent => simp [readTasks] at hf
  | stored ts => simp [readTasks] at hf
  | unreadable e2 =>
    simp only [readTasks, Option.some.injEq] at hf
    subst hf
    by_cases hid : id = 0 <;>
      simp [handleList, handleDone, handleDelete, handleModify, readTasks, hid]
  | malformed e2 =>
    simp only [readTasks, Option.some.injEq] at hf
    subst hf
    by_cases hid : id = 0 <;>
      simp [handleList, handleDone, handleDelete, handleModify, readTasks, hid]

/-- C4 fails for `add`: `handleAdd` discards the error of `readTasks`
(`tasks, _ := readTasks()`). On a file that exists but does not decode it
treats the store as empty, exits with status 0 and overwrites the file with
the single new task. -/
theorem handleAdd_overwrites_undecodable_file :
    handleAdd goTime .ok (.malformed "unexpected EOF") "x" ""
        = ⟨0, .added, .stored [⟨1, "x", false, 0⟩]⟩
      ∧ handleAdd goTime .ok (.unreadable "permission denied") "x" ""
        = ⟨0, .added, .stored [⟨1, "x", false, 0⟩]⟩ := by
  decide

/-! ## list: the due-date summary -/

theorem day_eq : 24 * hour = 86400000000000 := by decide

/-- C9, as stated, fails for a due date more than `2^63 - 1` nanoseconds
(about 292 years) ahead. A task due on 2400-01-01 (end of day, as `add` stores
it) listed on 2026-01-01T00:00:00Z has 136600 whole days left, so the stated
`N` is 136601; `Sub` saturates at the largest `Duration` and the line printed
says 106752. -/
theorem dueInfo_days_saturate :
    goTime.parse "2400-01-01" = .ok 75705062400000000000
      ∧ goTime.parse "2026-01-01" = .ok 63902822400000000000
      ∧ dueInfo goTime 63902822400000000000
          ⟨1, "x", false, 75705062400000000000 + (23 * hour + 59 * minute)⟩
        = "2400-01-01 (106752天后到期)"
      ∧ specDaysLeft (75705062400000000000 + (23 * hour + 59 * minute)) 63902822400000000000
        = 136601 := by
  have hd : daysLeft (75705062400000000000 + (23 * hour + 59 * minute)) 63902822400000000000
      = 106752 := by
    rw [daysLeft_exact _ _ (by decide) (by decide)]
    decide
  refine ⟨rfl, rfl, ?_, by decide⟩
  simp only [dueInfo, dueNote, hd]
  decide

/-- C9, amended. For every task and every current time, the due-date summary
of `list` is: the fixed text when the task has no due date; the formatted date
alone when the task is done; the formatted date plus the overdue suffix when
the task is not done and the due date is strictly before now; the formatted
date plus the suffix with `N` days when the task is not done and the due date
is now or later. Then `N = floor(h / 24) + 1 ≥ 1`, where `h` is the float64
number of hours (`Duration.Hours`) of the time until due capped at the largest
`Duration` (`2^63 - 1` ns). With `w` the whole days of that capped time, `N`
is `w + 1` or `w + 2`, and it is `w + 1` unless the time is within a
millisecond before a whole number of days. -/
theorem dueInfo_cases (lib : TimeLib) (now : Int) (t : Task) :
    (t.Due = 0 → dueInfo lib now t = "无截止日期")
      ∧ (t.Due ≠ 0 → t.Done = true → dueInfo lib now t = lib.format t.Due)
      ∧ (t.Due ≠ 0 → t.Done = false → t.Due < now →
          dueInfo lib now t = lib.format t.Due ++ " (已过期)")
      ∧ (t.Due ≠ 0 → t.Done = false → now ≤ t.Due →
          dueInfo lib now t
              = lib.format t.Due ++ (" (" ++ toString (daysLeft t.Due now) ++ "天后到期)")
            ∧ 1 ≤ daysLeft t.Due now
            ∧ daysLeft t.Due now = ⌊Hours (timeSub t.Due now) / 24⌋ + 1
            ∧ (t.Due - now ≤ maxDuration → timeSub t.Due now = t.Due - now)
            ∧ (maxDuration < t.Due - now → timeSub t.Due now = maxDuration)
            ∧ timeSub t.Due now / (24 * hour) + 1 ≤ daysLeft t.Due now
            ∧ daysLeft t.Due now ≤ timeSub t.Due now / (24 * hour) + 2
            ∧ (timeSub t.Due now % (24 * hour) + 1000000 ≤ 24 * hour →
                daysLeft t.Due now = timeSub t.Due now / (24 * hour) + 1)) := by
  refine ⟨?_, ?_, ?_, ?_⟩
  · intro h
    simp [dueInfo, h]
  · intro h hdone
    simp [dueInfo, dueNote, h, hdone, DueNote.text]
  · intro h hdone hlt
    simp [dueInfo, dueNote, h, hdone, hlt, DueNote.text]
  · intro h hdone hle
    obtain ⟨hb1, hb2⟩ := daysLeft_bounds t.Due now hle
    obtain ⟨h0, -, hs1, hs2⟩ := timeSub_bounds t.Due now hle
    have hq : 0 ≤ timeSub t.Due now / 86400000000000 := by omega
    have hpos : 0 < daysLeft t.Due now := by omega
    rw [day_eq]
    refine ⟨?_, by omega, daysLeft_eq_floor t.Due now hle, hs1, hs2, hb1, hb2,
      daysLeft_exact t.Due now hle⟩
    have hnlt : ¬ t.Due < now := by omega
    simp [dueInfo, dueNote, h, hdone, hnlt, hpos, DueNote.text]

/-- Instance: the task `buyMilk`, listed at `nov2026`. -/
theorem dueInfo_cases_witness :
    (buyMilk.Due = 0 → dueInfo goTime nov2026 buyMilk = "无截止日期")
      ∧ (buyMilk.Due ≠ 0 → buyMilk.Done = true →
          dueInfo goTime nov2026 buyMilk = goTime.format buyMilk.Due)
      ∧ (buyMilk.Due ≠ 0 → buyMilk.Done = false → buyMilk.Due < nov2026 →
          dueInfo goTime nov2026 buyMilk = goTime.format buyMilk.Due ++ " (已过期)")
      ∧ (buyMilk.Due ≠ 0 → buyMilk.Done = false → nov2026 ≤ buyMilk.Due →
          dueInfo goTime nov2026 buyMilk
              = goTime.format buyMilk.Due
                ++ (" (" ++ toString (daysLeft buyMilk.Due nov2026) ++ "天后到期)")
            ∧ 1 ≤ daysLeft buyMilk.Due nov2026
            ∧ daysLeft buyMilk.Due nov2026 = ⌊Hours (timeSub buyMilk.Due nov2026) / 24⌋ + 1
            ∧ (buyMilk.Due - nov2026 ≤ maxDuration →
                timeSub buyMilk.Due nov2026 = buyMilk.Due - nov2026)
            ∧ (maxDuration < buyMilk.Due - nov2026 → timeSub buyMilk.Due nov2026 = maxDuration)
            ∧ timeSub buyMilk.Due nov2026 / (24 * hour) + 1 ≤ daysLeft buyMilk.Due nov2026
            ∧ daysLeft buyMilk.Due nov2026 ≤ timeSub buyMilk.Due nov2026 / (24 * hour) + 2
            ∧ (timeSub buyMilk.Due nov2026 % (24 * hour) + 1000000 ≤ 24 * hour →
                daysLeft buyMilk.Due nov2026 = timeSub buyMilk.Due nov2026 / (24 * hour) + 1)) :=
  dueInfo_cases goTime nov2026 buyMilk

/-- The example of the specification: `add -name "Buy milk" -due 2030-01-01`,
listed on 2026-11-01T00:00:00Z, shows one unchecked entry with 1158 days
remaining. -/
theorem list_buy_milk :
    goTime.parse "2026-11-01" = .ok 63929088000000000000
      ∧ handleList goTime (handleAdd goTime .ok .absent "Buy milk" "2030-01-01").file
          63929088000000000000
        = ⟨0, .listing ["[ ] 1. Buy milk             2030-01-01 (1158天后到期)\n"],
            .stored [⟨1, "Buy milk", false, 64029139140000000000⟩]⟩ := by
  have hd : daysLeft 64029139140000000000 63929088000000000000 = 1158 := by
    rw [daysLeft_exact _ _ (by decide) (by decide)]
    decide
  refine ⟨rfl, ?_⟩
  have hadd : (handleAdd goTime .ok .absent "Buy milk" "2030-01-01").file
      = .stored [⟨1, "Buy milk", false, 64029139140000000000⟩] := by decide
  rw [hadd]
  simp only [handleList, readTasks, List.map, taskLine, dueInfo, dueNote, hd]
  decide

end GCLI
